import Mathlib

/-!
# Verification of the task-execution workflow engine

A shallow embedding of `api/agent/task_execution_agent.py`: the Python
dictionaries used for tool parameters, the `ExecutedAction` /
`ActionContext` pydantic models, the three LangGraph node functions
(`identify_actions`, `chained_identify_actions`, `execute_approved_tools`),
the routing functions, and a driver that runs the compiled graph with
explicit oracles for the LLM proposer, the tool registry and the approval
decisions delivered by the websocket endpoint.

Python values that only matter for equality comparison (JSON parameter
values) are modelled as strings; timestamps, which never influence any
comparison in the source, are modelled as naturals.
-/

set_option maxHeartbeats 1600000

namespace TaskExec

/-- Parameter values: the source compares them only for (in)equality, so an
opaque-but-decidable carrier suffices; we use strings. -/
abbrev PyVal := String

/-- A Python `dict` keyed by strings, as an insertion-ordered association
list. Source dicts (tool-call `args`) have pairwise-distinct keys. -/
abbrev PyDict := List (String × PyVal)

/-- First-match lookup, i.e. `d[k]` / `d.get(k)` on a Python dict (dicts
keep keys unique, so first match is the match). -/
def pyGet (d : PyDict) (k : String) : Option PyVal :=
  match d with
  | [] => none
  | p :: rest => if p.1 = k then some p.2 else pyGet rest k

/-- `k in d`. -/
def pyHasKey (d : PyDict) (k : String) : Bool :=
  d.any (fun p => p.1 == k)

/-- Python dict assignment `d[k] = v`: overwrite in place if the key is
present (keeping its position), otherwise append. -/
def dinsert (d : PyDict) (k : String) (v : PyVal) : PyDict :=
  if pyHasKey d k then d.map (fun p => if p.1 = k then (k, v) else p)
  else d ++ [(k, v)]

/-- Python dict equality `d1 == d2`: insertion-order-insensitive; every
entry of each side is found by lookup in the other. -/
def dictEq (d1 d2 : PyDict) : Bool :=
  d1.all (fun p => pyGet d2 p.1 == some p.2) &&
    d2.all (fun p => pyGet d1 p.1 == some p.2)

/-- `str.lower()` on a key: per-character case mapping (ASCII-faithful,
written structurally so that proofs can evaluate it). -/
def lowerStr (s : String) : String := ⟨s.data.map Char.toLower⟩

/-- Lexicographic code-point comparison on character lists: the order
Python's `sorted` uses on strings (written structurally so that proofs can
evaluate it). -/
def strLtL : List Char → List Char → Bool
  | [], [] => false
  | [], _ :: _ => true
  | _ :: _, [] => false
  | a :: as, b :: bs =>
      if a.toNat < b.toNat then true
      else if b.toNat < a.toNat then false
      else strLtL as bs

/-- `a < b` on strings, by code points. -/
def strLt (a b : String) : Bool := strLtL a.data b.data

/-- Insert a string into a list sorted under code-point `<` (the order
`sorted` uses). -/
def insertSorted (k : String) : List String → List String
  | [] => [k]
  | x :: xs => if strLt k x then k :: x :: xs else x :: insertSorted k xs

/-- Insertion sort on strings: the model of Python `sorted(d)` over a
dict's keys. -/
def sortStrings : List String → List String
  | [] => []
  | x :: xs => insertSorted x (sortStrings xs)

/-- `ExecutedAction.normalize_params`: `None` becomes the empty dict;
otherwise the comprehension rebuilds the dict iterating over the sorted
original keys, lower-casing each key (later assignments overwrite). -/
def normalize_params (v : Option PyDict) : PyDict :=
  match v with
  | none => []
  | some d =>
      (sortStrings (d.map Prod.fst)).foldl
        (fun acc k => dinsert acc (lowerStr k) ((pyGet d k).getD "")) []

/-- The `ExecutedAction` pydantic model (the spec's ActionRecord):
`parameters` is stored in validator-normalized form. -/
structure ExecutedAction where
  name : String
  parameters : PyDict
  timestamp : Nat
  deriving Repr, DecidableEq

/-- Constructing `ExecutedAction(name=.., parameters=.., timestamp=..)`
runs the `normalize_params` validator on the parameters. -/
def ExecutedAction.make (name : String) (params : Option PyDict)
    (ts : Nat) : ExecutedAction :=
  ⟨name, normalize_params params, ts⟩

/-- The duplicate test used at every call site:
`ea.name == other.name and ea.parameters == other.parameters`
(Python dict equality on the normalized parameters; the timestamp is
never consulted). -/
def isDuplicate (ea other : ExecutedAction) : Bool :=
  ea.name == other.name && dictEq ea.parameters other.parameters

/-- The `ActionContext` pydantic model. -/
structure ActionContext where
  previous_results : List String := []
  already_executed : List ExecutedAction := []
  deriving Repr, DecidableEq

/-- `ActionContext.add_executed_action`: a set-add keyed by the normalized
`(name, parameters)` pair. -/
def ActionContext.add_executed_action (ctx : ActionContext) (name : String)
    (parameters : Option PyDict) (ts : Nat) : ActionContext :=
  let new_action := ExecutedAction.make name parameters ts
  if ctx.already_executed.any (fun ea => isDuplicate ea new_action) then ctx
  else { ctx with already_executed := ctx.already_executed ++ [new_action] }

/-- `ActionContext.add_previous_result`. -/
def ActionContext.add_previous_result (ctx : ActionContext) (result : String) :
    ActionContext :=
  { ctx with previous_results := ctx.previous_results ++ [result] }

/-- The runtime value of the `action_context` state entry, as inspected by
`get_or_init_action_context`: the key may be absent, hold a non-dict value
(including `None`), hold a dict `ActionContext.parse_obj` rejects, or hold
a dict that parses back to a context (`ActionContext.dict()` round-trips
through `parse_obj` for these field types, so the parse outcome is carried
by the constructor). -/
inductive ACStore where
  | missing
  | notDict
  | badDict
  | stored (ctx : ActionContext)
  deriving Repr, DecidableEq

/-- A tool call as produced by the LLM (`response.tool_calls` entries):
`{name, args, id}`; `id` is an opaque correlation token. -/
structure ToolCall where
  name : String
  args : PyDict
  id : String
  deriving Repr, DecidableEq

/-- One entry of `actions_to_review["actions"]`. The `description` field of
the source is a display string derived from `tool` and `parameters`
(`f"Execute {name} with parameters: {args}"`), a re-derivable projection we
do not duplicate. -/
structure ReviewAction where
  tool : String
  parameters : PyDict
  deriving Repr, DecidableEq

/-- The `actions_to_review` payload. -/
structure ReviewPayload where
  question : String
  actions : List ReviewAction
  query : String
  deriving Repr, DecidableEq

/-- The `AgentState` TypedDict. `final_response` and `tool_response` are
strings whose Python truthiness is emptiness; `iter_count` is read with
`state.get("iter_count", 0)` and always written as a number, modelled as a
plain natural. -/
structure AgentState where
  query : String
  chained : Bool
  tool_calls : List ToolCall
  tool_response : String
  final_response : String
  user_approved : Bool
  requires_approval : Bool
  actions_to_review : Option ReviewPayload
  action_context : ACStore
  iter_count : Nat
  identified_actions : List ToolCall
  deriving Repr, DecidableEq

def NO_RESPONSE : String :=
  "We could not find any relevant information. Please rephrase the query"

def FALLBACK_RESPONSE : String :=
  "Task execution failed. Please rephrase or retry"

def MAX_CHAIN_ITERATIONS : Nat := 4

def CANCELLED_RESPONSE : String := "Task execution cancelled by user."

def ALREADY_COMPLETED_RESPONSE : String :=
  "All requested actions have already been completed."

/-- `get_or_init_action_context`: missing key or non-dict value, or a dict
the pydantic parse rejects, all fall back to a fresh empty context. -/
def get_or_init_action_context (state : AgentState) : ActionContext :=
  match state.action_context with
  | .missing => {}
  | .notDict => {}
  | .badDict => {}
  | .stored ctx => ctx

/-- The review payload built (identically) by both identify nodes. -/
def mkReview (query : String) (tcs : List ToolCall) : ReviewPayload :=
  { question := "Please review and approve the following actions:"
    actions := tcs.map (fun tc => { tool := tc.name, parameters := tc.args })
    query := query }

/-- `identify_actions` (single-shot proposer node). `propose` is the oracle
for `llm_with_tools.invoke(query).tool_calls or []`. The second component
records whether the node reached its `interrupt(...)` suspension point. -/
def identifyActionsI (propose : String → List ToolCall) (ts : Nat)
    (state : AgentState) : AgentState × Bool :=
  let tool_calls := propose state.query
  let state := { state with tool_calls := tool_calls }
  if tool_calls.isEmpty then
    ({ state with final_response := NO_RESPONSE, requires_approval := false },
      false)
  else
    let action_context := get_or_init_action_context state
    let filtered := tool_calls.filter (fun tc =>
      !(action_context.already_executed.any (fun ea =>
        isDuplicate ea (ExecutedAction.make tc.name (some tc.args) ts))))
    let state := { state with tool_calls := filtered }
    if filtered.isEmpty then
      ({ state with
          final_response :=
            if state.tool_response = "" then ALREADY_COMPLETED_RESPONSE
            else state.tool_response,
          requires_approval := false }, false)
    else
      ({ state with
          action_context := .stored action_context,
          requires_approval := true,
          actions_to_review := some (mkReview state.query filtered) }, true)

/-- `identify_actions`, state part. -/
def identify_actions (propose : String → List ToolCall) (ts : Nat)
    (state : AgentState) : AgentState :=
  (identifyActionsI propose ts state).1

/-- `chained_identify_actions`. `propose` is the oracle for the wrapped
`llm_with_tools.invoke(context_info)` call: it sees exactly the data the
prompt is built from (the parsed context and the original query) and
either raises (`Except.error`) or returns `response.tool_calls or []`.
The second component again records whether `interrupt(...)` was reached. -/
def chainedIdentifyActionsI
    (propose : ActionContext → String → Except Unit (List ToolCall))
    (ts : Nat) (state : AgentState) : AgentState × Bool :=
  let iter_count := state.iter_count + 1
  let state := { state with iter_count := iter_count }
  if iter_count > MAX_CHAIN_ITERATIONS then
    ({ state with
        final_response :=
          if state.tool_response = "" then NO_RESPONSE else state.tool_response,
        requires_approval := false }, false)
  else
    let action_context := get_or_init_action_context state
    match propose action_context state.query with
    | .error _ =>
        ({ state with
            final_response := FALLBACK_RESPONSE
            requires_approval := false }, false)
    | .ok tool_calls =>
        match tool_calls with
        | [] =>
            ({ state with
                final_response :=
                  if state.tool_response = "" then NO_RESPONSE
                  else state.tool_response,
                requires_approval := false }, false)
        | tool_call :: _ =>
            let action_key :=
              ExecutedAction.make tool_call.name (some tool_call.args) ts
            if action_context.already_executed.any (fun ea =>
                isDuplicate ea action_key) then
              ({ state with action_context := .stored action_context }, false)
            else
              ({ state with
                  identified_actions := [tool_call],
                  requires_approval := true,
                  actions_to_review :=
                    some (mkReview state.query [tool_call]),
                  action_context := .stored action_context }, true)

/-- `chained_identify_actions`, state part. -/
def chained_identify_actions
    (propose : ActionContext → String → Except Unit (List ToolCall))
    (ts : Nat) (state : AgentState) : AgentState :=
  (chainedIdentifyActionsI propose ts state).1

/-- The Executor oracle: `tool_dict.get(name)` either misses (`none`) or
yields an operation that, on `func.invoke(args)`, either raises
(`Except.error`) or returns the already-stringified response
(`dumps(response) if isinstance(response, dict) else str(response)`). -/
abbrev Registry := String → Option (PyDict → Except Unit String)

/-- The normalized key of one Executor invocation, recorded for the
invocation trace. -/
structure ActKey where
  name : String
  params : PyDict
  deriving Repr, DecidableEq

/-- Two invocations hit the same normalized action. -/
def sameKey (a b : ActKey) : Bool :=
  a.name == b.name && dictEq a.params b.params

/-- Result of running the `for tool_call in tool_calls_to_execute` loop:
the accumulated `tool_response` string, the mutated local context, the
trace of actual `func.invoke` calls, and whether the loop raised
(unknown name, or the operation itself raising). -/
structure BatchResult where
  tool_response : String
  ctx : ActionContext
  invoked : List ActKey
  raised : Bool
  deriving Repr, DecidableEq

/-- The body of the execution loop of `execute_approved_tools`:
per tool call, a final duplicate check (skip with a note), then registry
lookup (miss raises), then invocation (may raise), then accumulation into
`tool_response` / `previous_results` / `already_executed`. On a raise the
remaining calls are not processed. -/
def runBatch (reg : Registry) (ts : Nat) :
    List ToolCall → ActionContext → String → BatchResult
  | [], ctx, tr => ⟨tr, ctx, [], false⟩
  | tc :: rest, ctx, tr =>
      let action_key := ExecutedAction.make tc.name (some tc.args) ts
      if ctx.already_executed.any (fun ea => isDuplicate ea action_key) then
        runBatch reg ts rest ctx
          (tr ++ tc.name ++ ": Skipped - already executed with same parameters\n")
      else
        match reg tc.name with
        | none => ⟨tr, ctx, [], true⟩
        | some func =>
            let key : ActKey := ⟨tc.name, normalize_params (some tc.args)⟩
            match func tc.args with
            | .error _ => ⟨tr, ctx, [key], true⟩
            | .ok response_string =>
                let entry := tc.name ++ ": " ++ response_string ++ "\n"
                let ctx :=
                  (ctx.add_previous_result entry).add_executed_action
                    tc.name (some tc.args) ts
                let res := runBatch reg ts rest ctx (tr ++ entry)
                { res with invoked := key :: res.invoked }

/-- The `finally` block of `execute_approved_tools`: when a
`final_response` is set, reset the approval handshake and clear the
per-cycle action lists. -/
def applyFinally (s : AgentState) : AgentState :=
  if s.final_response ≠ "" then
    { s with
        user_approved := false
        requires_approval := false
        actions_to_review := none
        tool_calls := []
        identified_actions := [] }
  else s

/-- `execute_approved_tools`, with the trace of Executor invocations made
by this call as second component. The `user_approved` early return sits
before the `try`, so the `finally` block does not run on that path; the
`finally` block clears the transient fields only when a `final_response`
is present. On an in-loop raise the in-place `state["tool_response"]`
increments survive, but the `state["action_context"] = ...` write after
the loop is skipped. -/
def executeApprovedToolsT (reg : Registry) (ts : Nat)
    (state : AgentState) : AgentState × List ActKey :=
  if !state.user_approved then
    ({ state with
        final_response := CANCELLED_RESPONSE
        requires_approval := false }, [])
  else
    let tool_calls_to_execute :=
      if !state.chained then state.tool_calls else state.identified_actions
    if tool_calls_to_execute.isEmpty then
      (applyFinally { state with
          final_response := NO_RESPONSE
          requires_approval := false }, [])
    else
      let action_context := get_or_init_action_context state
      let res := runBatch reg ts tool_calls_to_execute action_context
        state.tool_response
      if res.raised then
        (applyFinally { state with
            tool_response := res.tool_response
            final_response := FALLBACK_RESPONSE
            requires_approval := false }, res.invoked)
      else
        let state := { state with
          tool_response := res.tool_response
          action_context := .stored res.ctx }
        let state :=
          if !state.chained then
            { state with
                final_response :=
                  if state.tool_response = "" then NO_RESPONSE
                  else state.tool_response
                requires_approval := false }
          else state
        (applyFinally state, res.invoked)

/-- `execute_approved_tools`, state part. -/
def execute_approved_tools (reg : Registry) (ts : Nat)
    (state : AgentState) : AgentState :=
  (executeApprovedToolsT reg ts state).1

/-- Targets of the conditional entry point. -/
inductive Route where
  | identify
  | chainedIdentify
  | toEnd
  deriving Repr, DecidableEq

/-- `tool_call_router` (the conditional entry point). -/
def tool_call_router (state : AgentState) : Route :=
  if state.final_response ≠ "" ∨
      (!state.requires_approval ∧ state.tool_calls = [] ∧
        state.identified_actions = [] ∧ state.iter_count > 0) then
    .toEnd
  else if state.chained then .chainedIdentify
  else .identify

/-- The conditional edge out of `execute_approved_tools`: loop back into
`chained_identify_actions` only in chained mode, with no final response
yet, and with `iter_count` still below the bound. -/
def loopEdge (state : AgentState) : Bool :=
  state.chained && state.final_response = "" &&
    state.iter_count < MAX_CHAIN_ITERATIONS

/-- All external collaborators of one run: the two proposer entry points,
the registry, and the approver who answers each interrupt (indexed by the
`iter_count` current at the suspension; single-shot suspensions use 0). -/
structure Oracles where
  propose1 : String → List ToolCall
  proposeC : ActionContext → String → Except Unit (List ToolCall)
  reg : Registry
  approve : Nat → Bool

/-- One committed chained cycle: the `chained_identify_actions` node (on
resume from its interrupt the endpoint writes the approval decision into
`user_approved`), then the unconditional edge into
`execute_approved_tools`. -/
def chainedCycle (O : Oracles) (ts : Nat) (state : AgentState) :
    AgentState × List ActKey :=
  let pr := chainedIdentifyActionsI O.proposeC ts state
  let s1 :=
    if pr.2 then { pr.1 with user_approved := O.approve pr.1.iter_count }
    else pr.1
  executeApprovedToolsT O.reg ts s1

/-- The chained loop: run a cycle, then follow the conditional edge; the
`fuel` argument only bounds the recursion and is irrelevant once it covers
the iteration budget. Returns the terminal state, the concatenated
invocation trace, and the number of cycles performed. -/
def chainedLoop (O : Oracles) (ts : Nat) :
    Nat → AgentState → AgentState × List ActKey × Nat
  | 0, s => (s, [], 0)
  | fuel + 1, s =>
      let c := chainedCycle O ts s
      if loopEdge c.1 then
        let r := chainedLoop O ts fuel c.1
        (r.1, c.2 ++ r.2.1, r.2.2 + 1)
      else (c.1, c.2, 1)

/-- One full graph run from an entry state: route, then either stop, run
the single-shot pair of nodes (after `identify_actions` the graph edge
enters `execute_approved_tools`, and the router chose `identify_actions`
only for non-chained states, for which the conditional edge after
execution always ends), or run the chained loop. -/
def graphRun (O : Oracles) (ts : Nat) (fuel : Nat) (state : AgentState) :
    AgentState × List ActKey :=
  match tool_call_router state with
  | .toEnd => (state, [])
  | .identify =>
      let pr := identifyActionsI O.propose1 ts state
      let s1 :=
        if pr.2 then { pr.1 with user_approved := O.approve 0 }
        else pr.1
      executeApprovedToolsT O.reg ts s1
  | .chainedIdentify =>
      let r := chainedLoop O ts fuel state
      (r.1, r.2.1)

/-- The initial state built by the websocket endpoint for a fresh request
(`initial_state` in `websocket_task_execution`). -/
def initialState (query : String) (chained : Bool) : AgentState :=
  { query := query
    chained := chained
    tool_calls := []
    tool_response := ""
    final_response := ""
    user_approved := false
    requires_approval := false
    actions_to_review := none
    action_context := .stored {}
    iter_count := 0
    identified_actions := [] }

/-- The response field of the event the endpoint sends for a state:
`state.get("final_response") or state.get("tool_response", "")`. -/
def surfacedResponse (state : AgentState) : String :=
  if state.final_response ≠ "" then state.final_response
  else state.tool_response

/-! ## Basic facts about the dict model -/

theorem pyGet_mem {d : PyDict} {k : String} {v : PyVal}
    (h : pyGet d k = some v) : (k, v) ∈ d := by
  induction d with
  | nil => simp [pyGet] at h
  | cons p rest ih =>
      obtain ⟨a, b⟩ := p
      simp only [pyGet] at h
      by_cases hk : a = k
      · subst hk
        simp only [if_pos rfl] at h
        cases h
        exact List.mem_cons_self _ _
      · simp only [if_neg hk] at h
        exact List.mem_cons_of_mem _ (ih h)

theorem dictEq_iff {d1 d2 : PyDict} :
    dictEq d1 d2 = true ↔
      ((∀ p ∈ d1, pyGet d2 p.1 = some p.2) ∧
        (∀ p ∈ d2, pyGet d1 p.1 = some p.2)) := by
  simp [dictEq, List.all_eq_true, beq_iff_eq]

theorem dictEq_symm (d1 d2 : PyDict) : dictEq d1 d2 = dictEq d2 d1 := by
  simp [dictEq, Bool.and_comm]

theorem dictEq_trans {a b c : PyDict} (hab : dictEq a b = true)
    (hbc : dictEq b c = true) : dictEq a c = true := by
  rw [dictEq_iff] at hab hbc ⊢
  constructor
  · intro p hp
    exact hbc.1 _ (pyGet_mem (hab.1 p hp))
  · intro p hp
    exact hab.2 _ (pyGet_mem (hbc.2 p hp))

theorem sameKey_symm (a b : ActKey) : sameKey a b = sameKey b a := by
  simp only [sameKey]
  rw [dictEq_symm]
  by_cases h : a.name = b.name
  · rw [h]
  · have h1 : (a.name == b.name) = false := by simp [h]
    have h2 : (b.name == a.name) = false := by
      simp only [beq_eq_false_iff_ne, ne_eq]
      exact fun e => h e.symm
    rw [h1, h2]

theorem sameKey_trans {a b c : ActKey} (hab : sameKey a b = true)
    (hbc : sameKey b c = true) : sameKey a c = true := by
  simp only [sameKey, Bool.and_eq_true, beq_iff_eq] at hab hbc ⊢
  exact ⟨hab.1.trans hbc.1, dictEq_trans hab.2 hbc.2⟩

/-- The normalized key of a tool call, as recorded in traces. -/
def ToolCall.key (tc : ToolCall) : ActKey :=
  ⟨tc.name, normalize_params (some tc.args)⟩

/-- The key of a stored `ExecutedAction` (its parameters are already
normalized). -/
def ExecutedAction.key (ea : ExecutedAction) : ActKey :=
  ⟨ea.name, ea.parameters⟩

theorem isDuplicate_eq_sameKey (ea : ExecutedAction) (n : String)
    (p : Option PyDict) (ts : Nat) :
    isDuplicate ea (ExecutedAction.make n p ts) =
      sameKey ea.key ⟨n, normalize_params p⟩ := rfl

/-- Whether a context already records an action with this key. -/
def hasKeyCtx (ctx : ActionContext) (k : ActKey) : Bool :=
  ctx.already_executed.any (fun ea => sameKey ea.key k)

theorem hasKeyCtx_iff {ctx : ActionContext} {k : ActKey} :
    hasKeyCtx ctx k = true ↔
      ∃ ea ∈ ctx.already_executed, sameKey ea.key k = true := by
  simp [hasKeyCtx, List.any_eq_true]

/-- The duplicate test performed by the nodes is exactly `hasKeyCtx` of
the tool call's key. -/
theorem anyDup_eq_hasKeyCtx (ctx : ActionContext) (tc : ToolCall)
    (ts : Nat) :
    (ctx.already_executed.any (fun ea =>
      isDuplicate ea (ExecutedAction.make tc.name (some tc.args) ts))) =
      hasKeyCtx ctx tc.key := rfl

/-- Whether a record list holds an action with this key. -/
def hasKeyL (l : List ExecutedAction) (k : ActKey) : Bool :=
  l.any (fun ea => sameKey ea.key k)

theorem hasKeyCtx_eq (ctx : ActionContext) (k : ActKey) :
    hasKeyCtx ctx k = hasKeyL ctx.already_executed k := rfl

theorem hasKeyL_append (l1 l2 : List ExecutedAction) (k : ActKey) :
    hasKeyL (l1 ++ l2) k = (hasKeyL l1 k || hasKeyL l2 k) :=
  List.any_append

theorem hasKeyL_iff {l : List ExecutedAction} {k : ActKey} :
    hasKeyL l k = true ↔ ∃ ea ∈ l, sameKey ea.key k = true := by
  simp [hasKeyL, List.any_eq_true]

/-- No two records in the list share a normalized key: the dedup
invariant of `already_executed`. -/
def NoDupKeys (l : List ExecutedAction) : Prop :=
  List.Pairwise (fun a b => sameKey a.key b.key = false) l

theorem mem_pyGet_of_nodup {d : PyDict} {k : String} {v : PyVal}
    (hd : (d.map Prod.fst).Nodup) (hm : (k, v) ∈ d) :
    pyGet d k = some v := by
  induction d with
  | nil => cases hm
  | cons p rest ih =>
      obtain ⟨a, b⟩ := p
      simp only [List.map_cons, List.nodup_cons] at hd
      rcases List.mem_cons.mp hm with h | h
      · cases h
        simp [pyGet]
      · have hak : a ≠ k := by
          intro e
          subst e
          exact hd.1 (List.mem_map_of_mem Prod.fst h)
        simp only [pyGet, if_neg hak]
        exact ih hd.2 h

theorem dictEq_refl_of_nodup {d : PyDict}
    (hd : (d.map Prod.fst).Nodup) : dictEq d d = true := by
  rw [dictEq_iff]
  exact ⟨fun p hp => mem_pyGet_of_nodup hd hp,
    fun p hp => mem_pyGet_of_nodup hd hp⟩

theorem keys_dinsert (d : PyDict) (k : String) (v : PyVal) :
    (dinsert d k v).map Prod.fst =
      if pyHasKey d k then d.map Prod.fst else d.map Prod.fst ++ [k] := by
  by_cases h : pyHasKey d k = true
  · simp only [dinsert, if_pos h]
    rw [List.map_map]
    apply List.map_congr_left
    intro p _
    by_cases hp : p.1 = k
    · simp [hp]
    · simp [hp]
  · have h' : pyHasKey d k = false := by revert h; cases pyHasKey d k <;> simp
    simp [dinsert, h']

theorem nodup_dinsert {d : PyDict} (k : String) (v : PyVal)
    (hd : (d.map Prod.fst).Nodup) :
    ((dinsert d k v).map Prod.fst).Nodup := by
  rw [keys_dinsert]
  by_cases h : pyHasKey d k = true
  · simpa [h]
  · have h' : pyHasKey d k = false := by revert h; cases pyHasKey d k <;> simp
    have hk : k ∉ d.map Prod.fst := by
      intro hmem
      rcases List.mem_map.mp hmem with ⟨p, hp, he⟩
      have : pyHasKey d k = true := by
        simp only [pyHasKey, List.any_eq_true]
        exact ⟨p, hp, by simp [he]⟩
      rw [this] at h'
      cases h'
    rw [if_neg (by simp [h'])]
    refine List.Nodup.append hd (List.nodup_singleton k) ?_
    intro a ha hb
    rw [List.mem_singleton] at hb
    subst hb
    exact hk ha

theorem normalize_params_nodup (p : Option PyDict) :
    ((normalize_params p).map Prod.fst).Nodup := by
  cases p with
  | none => simp [normalize_params]
  | some d =>
      simp only [normalize_params]
      generalize sortStrings (d.map Prod.fst) = ks
      have main : ∀ (l : List String) (acc : PyDict),
          (acc.map Prod.fst).Nodup →
          ((l.foldl (fun acc k =>
              dinsert acc (lowerStr k) ((pyGet d k).getD "")) acc).map
            Prod.fst).Nodup := by
        intro l
        induction l with
        | nil => intro acc h; simpa using h
        | cons x xs ih =>
            intro acc h
            exact ih _ (nodup_dinsert _ _ h)
      exact main ks [] (by simp)

theorem sameKey_refl_norm (n : String) (p : Option PyDict) :
    sameKey ⟨n, normalize_params p⟩ ⟨n, normalize_params p⟩ = true := by
  simp only [sameKey, Bool.and_eq_true, beq_self_eq_true, true_and]
  exact dictEq_refl_of_nodup (normalize_params_nodup p)

/-- `add_executed_action` on a context that already holds the key is the
identity. -/
theorem add_executed_action_dup {ctx : ActionContext} {n : String}
    {p : Option PyDict} {ts : Nat}
    (h : hasKeyL ctx.already_executed ⟨n, normalize_params p⟩ = true) :
    ctx.add_executed_action n p ts = ctx := by
  simp only [ActionContext.add_executed_action]
  rw [if_pos]
  exact h

/-- `add_executed_action` on a fresh key appends the normalized record. -/
theorem add_executed_action_fresh {ctx : ActionContext} {n : String}
    {p : Option PyDict} {ts : Nat}
    (h : hasKeyL ctx.already_executed ⟨n, normalize_params p⟩ = false) :
    ctx.add_executed_action n p ts =
      { ctx with already_executed :=
          ctx.already_executed ++ [ExecutedAction.make n p ts] } := by
  have hany : (ctx.already_executed.any fun ea =>
      isDuplicate ea (ExecutedAction.make n p ts)) = false := h
  simp only [ActionContext.add_executed_action, hany]
  simp

theorem hasKeyL_false_iff {l : List ExecutedAction} {k : ActKey} :
    hasKeyL l k = false ↔ ∀ ea ∈ l, sameKey ea.key k = false := by
  rw [← Bool.not_eq_true, hasKeyL_iff]
  constructor
  · intro h ea hm
    by_contra hne
    exact h ⟨ea, hm, by revert hne; cases sameKey ea.key k <;> simp⟩
  · rintro h ⟨ea, hm, hs⟩
    rw [h ea hm] at hs
    cases hs

theorem runBatch_nil (reg : Registry) (ts : Nat) (ctx : ActionContext)
    (tr : String) : runBatch reg ts [] ctx tr = ⟨tr, ctx, [], false⟩ := rfl

/-- Unfolding equation for `runBatch` on a cons cell, phrased through the
named helpers. -/
theorem runBatch_cons (reg : Registry) (ts : Nat) (tc : ToolCall)
    (rest : List ToolCall) (ctx : ActionContext) (tr : String) :
    runBatch reg ts (tc :: rest) ctx tr =
      (if hasKeyL ctx.already_executed tc.key then
        runBatch reg ts rest ctx
          (tr ++ tc.name ++ ": Skipped - already executed with same parameters\n")
      else
        match reg tc.name with
        | none => ⟨tr, ctx, [], true⟩
        | some func =>
            match func tc.args with
            | .error _ => ⟨tr, ctx, [tc.key], true⟩
            | .ok response_string =>
                let entry := tc.name ++ ": " ++ response_string ++ "\n"
                let ctx2 := (ctx.add_previous_result entry).add_executed_action
                  tc.name (some tc.args) ts
                let res := runBatch reg ts rest ctx2 (tr ++ entry)
                { res with invoked := tc.key :: res.invoked }) := rfl

theorem add_previous_result_already (ctx : ActionContext) (r : String) :
    (ctx.add_previous_result r).already_executed = ctx.already_executed := rfl

/-- The `"name: result"` line appended for a successful invocation. -/
def entryOf (tc : ToolCall) (r : String) : String :=
  tc.name ++ ": " ++ r ++ "\n"

/-- The context after recording one successful invocation. -/
def stepCtx (ctx : ActionContext) (tc : ToolCall) (r : String) (ts : Nat) :
    ActionContext :=
  (ctx.add_previous_result (entryOf tc r)).add_executed_action
    tc.name (some tc.args) ts

theorem runBatch_cons_skip {reg : Registry} {ts : Nat} {tc : ToolCall}
    {rest : List ToolCall} {ctx : ActionContext} {tr : String}
    (h : hasKeyL ctx.already_executed tc.key = true) :
    runBatch reg ts (tc :: rest) ctx tr =
      runBatch reg ts rest ctx
        (tr ++ tc.name ++ ": Skipped - already executed with same parameters\n") := by
  rw [runBatch_cons, if_pos h]

theorem runBatch_cons_miss {reg : Registry} {ts : Nat} {tc : ToolCall}
    {rest : List ToolCall} {ctx : ActionContext} {tr : String}
    (h : hasKeyL ctx.already_executed tc.key = false)
    (hr : reg tc.name = none) :
    runBatch reg ts (tc :: rest) ctx tr = ⟨tr, ctx, [], true⟩ := by
  rw [runBatch_cons, if_neg (by simp [h]), hr]

theorem runBatch_cons_error {reg : Registry} {ts : Nat} {tc : ToolCall}
    {rest : List ToolCall} {ctx : ActionContext} {tr : String}
    {func : PyDict → Except Unit String} {e : Unit}
    (h : hasKeyL ctx.already_executed tc.key = false)
    (hr : reg tc.name = some func) (hf : func tc.args = .error e) :
    runBatch reg ts (tc :: rest) ctx tr = ⟨tr, ctx, [tc.key], true⟩ := by
  rw [runBatch_cons, if_neg (by simp [h]), hr]
  simp only []
  rw [hf]

theorem runBatch_cons_ok {reg : Registry} {ts : Nat} {tc : ToolCall}
    {rest : List ToolCall} {ctx : ActionContext} {tr : String}
    {func : PyDict → Except Unit String} {r : String}
    (h : hasKeyL ctx.already_executed tc.key = false)
    (hr : reg tc.name = some func) (hf : func tc.args = .ok r) :
    runBatch reg ts (tc :: rest) ctx tr =
      { runBatch reg ts rest (stepCtx ctx tc r ts) (tr ++ entryOf tc r) with
          invoked := tc.key ::
            (runBatch reg ts rest (stepCtx ctx tc r ts)
              (tr ++ entryOf tc r)).invoked } := by
  rw [runBatch_cons, if_neg (by simp [h]), hr]
  simp only []
  rw [hf]
  rfl

/-- The `already_executed` list after `stepCtx` on a fresh key. -/
theorem stepCtx_already {ctx : ActionContext} {tc : ToolCall} (r : String)
    (ts : Nat) (h : hasKeyL ctx.already_executed tc.key = false) :
    (stepCtx ctx tc r ts).already_executed =
      ctx.already_executed ++ [ExecutedAction.make tc.name (some tc.args) ts] := by
  simp only [stepCtx]
  rw [add_executed_action_fresh (by rw [add_previous_result_already]; exact h)]
  rfl

/-- The main loop invariant of the execution loop: starting from a
duplicate-free context, the context only grows, stays duplicate-free, the
invocations of one batch are pairwise distinct normalized actions, none of
them was already recorded, and — when the loop does not raise — all of
them are recorded in the resulting context. -/
theorem runBatch_inv (reg : Registry) (ts : Nat) :
    ∀ (l : List ToolCall) (ctx : ActionContext) (tr : String),
      NoDupKeys ctx.already_executed →
      (∃ ext, (runBatch reg ts l ctx tr).ctx.already_executed =
          ctx.already_executed ++ ext) ∧
      NoDupKeys (runBatch reg ts l ctx tr).ctx.already_executed ∧
      List.Pairwise (fun a b => sameKey a b = false)
        (runBatch reg ts l ctx tr).invoked ∧
      (∀ k ∈ (runBatch reg ts l ctx tr).invoked,
        hasKeyL ctx.already_executed k = false) ∧
      ((runBatch reg ts l ctx tr).raised = false →
        ∀ k ∈ (runBatch reg ts l ctx tr).invoked,
          hasKeyL (runBatch reg ts l ctx tr).ctx.already_executed k = true) := by
  intro l
  induction l with
  | nil =>
      intro ctx tr hnd
      rw [runBatch_nil]
      exact ⟨⟨[], by simp⟩, hnd, by simp, by simp, by simp⟩
  | cons tc rest ih =>
      intro ctx tr hnd
      by_cases hdup : hasKeyL ctx.already_executed tc.key = true
      · rw [runBatch_cons_skip hdup]
        exact ih ctx _ hnd
      · have hfresh : hasKeyL ctx.already_executed tc.key = false := by
          revert hdup; cases hasKeyL ctx.already_executed tc.key <;> simp
        cases hreg : reg tc.name with
        | none =>
            rw [runBatch_cons_miss hfresh hreg]
            exact ⟨⟨[], by simp⟩, hnd, by simp, by simp, by simp⟩
        | some func =>
            cases hf : func tc.args with
            | error e =>
                rw [runBatch_cons_error hfresh hreg hf]
                refine ⟨⟨[], by simp⟩, hnd, by simp, ?_, by simp⟩
                intro k hk
                simp only [List.mem_singleton] at hk
                subst hk
                exact hfresh
            | ok response_string =>
                rw [runBatch_cons_ok hfresh hreg hf]
                have hctx2 : (stepCtx ctx tc response_string ts).already_executed =
                    ctx.already_executed ++
                      [ExecutedAction.make tc.name (some tc.args) ts] :=
                  stepCtx_already response_string ts hfresh
                have hnewkey :
                    (ExecutedAction.make tc.name (some tc.args) ts).key =
                      tc.key := rfl
                have hnd2 : NoDupKeys
                    (stepCtx ctx tc response_string ts).already_executed := by
                  rw [hctx2]
                  simp only [NoDupKeys] at hnd ⊢
                  rw [List.pairwise_append]
                  refine ⟨hnd, List.pairwise_singleton _ _, ?_⟩
                  intro a ha b hb
                  rw [List.mem_singleton] at hb
                  subst hb
                  rw [hnewkey]
                  exact (hasKeyL_false_iff.mp hfresh) a ha
                obtain ⟨⟨ext, hext⟩, hndr, hpair, hfr, hrec⟩ :=
                  ih (stepCtx ctx tc response_string ts) (tr ++ entryOf tc response_string) hnd2
                refine ⟨?_, ?_, ?_, ?_, ?_⟩
                · refine ⟨[ExecutedAction.make tc.name (some tc.args) ts] ++ ext, ?_⟩
                  simp only []
                  rw [hext, hctx2, List.append_assoc]
                · exact hndr
                · simp only []
                  rw [List.pairwise_cons]
                  refine ⟨?_, hpair⟩
                  intro k hk
                  by_contra hne
                  have hsk : sameKey tc.key k = true := by
                    revert hne; cases sameKey tc.key k <;> simp
                  have hin : hasKeyL
                      (stepCtx ctx tc response_string ts).already_executed k = true := by
                    rw [hasKeyL_iff]
                    refine ⟨ExecutedAction.make tc.name (some tc.args) ts, ?_, ?_⟩
                    · rw [hctx2]; simp
                    · rw [hnewkey]; exact hsk
                  rw [hfr k hk] at hin
                  cases hin
                · intro k hk
                  simp only [List.mem_cons] at hk
                  rcases hk with hk | hk
                  · subst hk; exact hfresh
                  · have hall := hfr k hk
                    rw [hasKeyL_false_iff] at hall ⊢
                    intro ea hea
                    refine hall ea ?_
                    rw [hctx2]
                    exact List.mem_append_left _ hea
                · intro hra k hk
                  simp only [List.mem_cons] at hk
                  rcases hk with hk | hk
                  · subst hk
                    rw [hasKeyL_iff]
                    refine ⟨ExecutedAction.make tc.name (some tc.args) ts, ?_, ?_⟩
                    · rw [hext, hctx2]
                      simp
                    · rw [hnewkey]
                      exact sameKey_refl_norm tc.name (some tc.args)
                  · exact hrec hra k hk

/-! ## Shape lemmas for the node functions -/

/-- The batch `execute_approved_tools` iterates over. -/
def toExecute (s : AgentState) : List ToolCall :=
  if !s.chained then s.tool_calls else s.identified_actions

theorem execT_cancel {reg : Registry} {ts : Nat} {s : AgentState}
    (h : s.user_approved = false) :
    executeApprovedToolsT reg ts s =
      ({ s with
          final_response := CANCELLED_RESPONSE
          requires_approval := false }, []) := by
  simp only [executeApprovedToolsT, h]
  rfl

theorem execT_empty {reg : Registry} {ts : Nat} {s : AgentState}
    (h : s.user_approved = true) (he : toExecute s = []) :
    executeApprovedToolsT reg ts s =
      (applyFinally { s with
          final_response := NO_RESPONSE
          requires_approval := false }, []) := by
  have he' : (if !s.chained then s.tool_calls else s.identified_actions).isEmpty
      = true := by
    rw [show (if !s.chained then s.tool_calls else s.identified_actions)
      = toExecute s from rfl, he]
    rfl
  simp only [executeApprovedToolsT, h, Bool.not_true, he']
  simp

theorem execT_raised {reg : Registry} {ts : Nat} {s : AgentState}
    (h : s.user_approved = true) (he : toExecute s ≠ [])
    (hr : (runBatch reg ts (toExecute s) (get_or_init_action_context s)
      s.tool_response).raised = true) :
    executeApprovedToolsT reg ts s =
      (applyFinally { s with
          tool_response := (runBatch reg ts (toExecute s)
            (get_or_init_action_context s) s.tool_response).tool_response
          final_response := FALLBACK_RESPONSE
          requires_approval := false },
        (runBatch reg ts (toExecute s) (get_or_init_action_context s)
          s.tool_response).invoked) := by
  have heF : (toExecute s).isEmpty = false := by
    cases hx : toExecute s
    · exact absurd hx he
    · rfl
  simp only [executeApprovedToolsT, h, Bool.not_true,
    show (if !s.chained then s.tool_calls else s.identified_actions)
      = toExecute s from rfl, heF, hr]
  simp

/-- The state assembled on the successful-batch path, before the
`finally` block. -/
def postBatchState (reg : Registry) (ts : Nat) (s : AgentState) : AgentState :=
  let res := runBatch reg ts (toExecute s) (get_or_init_action_context s)
    s.tool_response
  let st := { s with
    tool_response := res.tool_response
    action_context := ACStore.stored res.ctx }
  if !s.chained then
    { st with
        final_response :=
          if st.tool_response = "" then NO_RESPONSE else st.tool_response
        requires_approval := false }
  else st

theorem execT_ok {reg : Registry} {ts : Nat} {s : AgentState}
    (h : s.user_approved = true) (he : toExecute s ≠ [])
    (hr : (runBatch reg ts (toExecute s) (get_or_init_action_context s)
      s.tool_response).raised = false) :
    executeApprovedToolsT reg ts s =
      (applyFinally (postBatchState reg ts s),
        (runBatch reg ts (toExecute s) (get_or_init_action_context s)
          s.tool_response).invoked) := by
  have heF : (toExecute s).isEmpty = false := by
    cases hx : toExecute s
    · exact absurd hx he
    · rfl
  simp only [executeApprovedToolsT, h, Bool.not_true,
    show (if !s.chained then s.tool_calls else s.identified_actions)
      = toExecute s from rfl, heF, hr, postBatchState]
  simp

theorem gctx_applyFinally (s : AgentState) :
    get_or_init_action_context (applyFinally s) =
      get_or_init_action_context s := by
  simp only [applyFinally]
  split <;> rfl

theorem applyFinally_final (s : AgentState) :
    (applyFinally s).final_response = s.final_response := by
  simp only [applyFinally]
  split <;> rfl

theorem applyFinally_chained (s : AgentState) :
    (applyFinally s).chained = s.chained := by
  simp only [applyFinally]
  split <;> rfl

theorem applyFinally_iter (s : AgentState) :
    (applyFinally s).iter_count = s.iter_count := by
  simp only [applyFinally]
  split <;> rfl

theorem applyFinally_toolResponse (s : AgentState) :
    (applyFinally s).tool_response = s.tool_response := by
  simp only [applyFinally]
  split <;> rfl

theorem gctx_postBatchState (reg : Registry) (ts : Nat) (s : AgentState) :
    get_or_init_action_context (postBatchState reg ts s) =
      (runBatch reg ts (toExecute s) (get_or_init_action_context s)
        s.tool_response).ctx := by
  simp only [postBatchState]
  split <;> rfl

theorem NO_RESPONSE_ne : NO_RESPONSE ≠ "" := by decide

theorem FALLBACK_ne : FALLBACK_RESPONSE ≠ "" := by decide

theorem CANCELLED_ne : CANCELLED_RESPONSE ≠ "" := by decide

/-- Pairwise-distinct normalized invocation keys. -/
def distinctKeys (l : List ActKey) : Prop :=
  List.Pairwise (fun a b => sameKey a b = false) l

/-- Invariant bundle for one `execute_approved_tools` call: the context
only grows and stays duplicate-free, the invocations are pairwise
distinct, all fresh with respect to the incoming context, and — whenever
the workflow is in a position to continue (no final response) — all
recorded in the outgoing context. -/
theorem executeT_inv (reg : Registry) (ts : Nat) (s : AgentState)
    (hnd : NoDupKeys (get_or_init_action_context s).already_executed) :
    NoDupKeys (get_or_init_action_context
        (executeApprovedToolsT reg ts s).1).already_executed ∧
    (∃ ext, (get_or_init_action_context
        (executeApprovedToolsT reg ts s).1).already_executed =
          (get_or_init_action_context s).already_executed ++ ext) ∧
    distinctKeys (executeApprovedToolsT reg ts s).2 ∧
    (∀ k ∈ (executeApprovedToolsT reg ts s).2,
      hasKeyL (get_or_init_action_context s).already_executed k = false) ∧
    ((executeApprovedToolsT reg ts s).1.final_response = "" →
      ∀ k ∈ (executeApprovedToolsT reg ts s).2,
        hasKeyL (get_or_init_action_context
          (executeApprovedToolsT reg ts s).1).already_executed k = true) := by
  by_cases hap : s.user_approved = true
  · by_cases hemp : toExecute s = []
    · rw [execT_empty hap hemp]
      refine ⟨?_, ⟨[], ?_⟩, by simp [distinctKeys], by simp, by simp⟩
      · rw [gctx_applyFinally]
        exact hnd
      · rw [gctx_applyFinally]
        exact (List.append_nil _).symm
    · by_cases hra : (runBatch reg ts (toExecute s)
        (get_or_init_action_context s) s.tool_response).raised = true
      · rw [execT_raised hap hemp hra]
        obtain ⟨hext, hndr, hpair, hfr, _⟩ :=
          runBatch_inv reg ts (toExecute s) (get_or_init_action_context s)
            s.tool_response hnd
        have hctxeq : get_or_init_action_context
            (applyFinally { s with
              tool_response := (runBatch reg ts (toExecute s)
                (get_or_init_action_context s) s.tool_response).tool_response
              final_response := FALLBACK_RESPONSE
              requires_approval := false }) = get_or_init_action_context s := by
          rw [gctx_applyFinally]
          rfl
        refine ⟨?_, ⟨[], ?_⟩, hpair, hfr, ?_⟩
        · rw [hctxeq]
          exact hnd
        · rw [hctxeq]
          exact (List.append_nil _).symm
        · intro hfin
          rw [applyFinally_final] at hfin
          exact absurd hfin FALLBACK_ne
      · have hra' : (runBatch reg ts (toExecute s)
            (get_or_init_action_context s) s.tool_response).raised = false := by
          revert hra
          cases (runBatch reg ts (toExecute s) (get_or_init_action_context s)
            s.tool_response).raised <;> simp
        rw [execT_ok hap hemp hra']
        obtain ⟨hext, hndr, hpair, hfr, hrec⟩ :=
          runBatch_inv reg ts (toExecute s) (get_or_init_action_context s)
            s.tool_response hnd
        have hctxeq : get_or_init_action_context
            (applyFinally (postBatchState reg ts s)) =
              (runBatch reg ts (toExecute s) (get_or_init_action_context s)
                s.tool_response).ctx := by
          rw [gctx_applyFinally, gctx_postBatchState]
        refine ⟨?_, ?_, hpair, hfr, ?_⟩
        · rw [hctxeq]
          exact hndr
        · rw [hctxeq]
          exact hext
        · intro _ k hk
          rw [hctxeq]
          exact hrec hra' k hk
  · have hap' : s.user_approved = false := by
      revert hap
      cases s.user_approved <;> simp
    rw [execT_cancel hap']
    exact ⟨hnd, ⟨[], (List.append_nil _).symm⟩, by simp [distinctKeys], by simp,
      fun hfin => absurd hfin CANCELLED_ne⟩

/-- Fields `chained_identify_actions` never rewrites (and the context it
stores is the one it parsed, so the parsed context is preserved). -/
theorem chainedI_fields (p : ActionContext → String → Except Unit (List ToolCall))
    (ts : Nat) (s : AgentState) :
    (chainedIdentifyActionsI p ts s).1.iter_count = s.iter_count + 1 ∧
    (chainedIdentifyActionsI p ts s).1.chained = s.chained ∧
    (chainedIdentifyActionsI p ts s).1.tool_response = s.tool_response ∧
    (chainedIdentifyActionsI p ts s).1.query = s.query ∧
    get_or_init_action_context (chainedIdentifyActionsI p ts s).1 =
      get_or_init_action_context s := by
  simp only [chainedIdentifyActionsI]
  repeat' split
  all_goals exact ⟨rfl, rfl, rfl, rfl, rfl⟩

/-- Fields `identify_actions` never rewrites. -/
theorem identifyI_fields (p : String → List ToolCall) (ts : Nat)
    (s : AgentState) :
    (identifyActionsI p ts s).1.iter_count = s.iter_count ∧
    (identifyActionsI p ts s).1.chained = s.chained ∧
    (identifyActionsI p ts s).1.tool_response = s.tool_response ∧
    (identifyActionsI p ts s).1.query = s.query ∧
    get_or_init_action_context (identifyActionsI p ts s).1 =
      get_or_init_action_context s := by
  simp only [identifyActionsI]
  repeat' split
  all_goals exact ⟨rfl, rfl, rfl, rfl, rfl⟩

/-- Fields `execute_approved_tools` never rewrites. -/
theorem execT_fields (reg : Registry) (ts : Nat) (s : AgentState) :
    (executeApprovedToolsT reg ts s).1.iter_count = s.iter_count ∧
    (executeApprovedToolsT reg ts s).1.chained = s.chained ∧
    (executeApprovedToolsT reg ts s).1.query = s.query := by
  simp only [executeApprovedToolsT, applyFinally]
  repeat' split
  all_goals exact ⟨rfl, rfl, rfl⟩

/-- The state fed into `execute_approved_tools` inside a chained cycle. -/
def cycleMid (O : Oracles) (ts : Nat) (s : AgentState) : AgentState :=
  let pr := chainedIdentifyActionsI O.proposeC ts s
  if pr.2 then { pr.1 with user_approved := O.approve pr.1.iter_count }
  else pr.1

theorem chainedCycle_eq (O : Oracles) (ts : Nat) (s : AgentState) :
    chainedCycle O ts s = executeApprovedToolsT O.reg ts (cycleMid O ts s) := rfl

theorem cycleMid_gctx (O : Oracles) (ts : Nat) (s : AgentState) :
    get_or_init_action_context (cycleMid O ts s) =
      get_or_init_action_context s := by
  obtain ⟨-, -, -, -, hg⟩ := chainedI_fields O.proposeC ts s
  simp only [cycleMid]
  split
  · rw [← hg]
    rfl
  · exact hg

theorem cycleMid_iter (O : Oracles) (ts : Nat) (s : AgentState) :
    (cycleMid O ts s).iter_count = s.iter_count + 1 := by
  obtain ⟨hi, -, -, -, -⟩ := chainedI_fields O.proposeC ts s
  simp only [cycleMid]
  split
  · rw [← hi]
  · exact hi

theorem cycleMid_chained (O : Oracles) (ts : Nat) (s : AgentState) :
    (cycleMid O ts s).chained = s.chained := by
  obtain ⟨-, hc, -, -, -⟩ := chainedI_fields O.proposeC ts s
  simp only [cycleMid]
  split
  · rw [← hc]
  · exact hc

/-- Invariant bundle for one chained cycle (identify, approval write-back,
execute). -/
theorem chainedCycle_inv (O : Oracles) (ts : Nat) (s : AgentState)
    (hnd : NoDupKeys (get_or_init_action_context s).already_executed) :
    NoDupKeys (get_or_init_action_context
        (chainedCycle O ts s).1).already_executed ∧
    (∃ ext, (get_or_init_action_context
        (chainedCycle O ts s).1).already_executed =
          (get_or_init_action_context s).already_executed ++ ext) ∧
    distinctKeys (chainedCycle O ts s).2 ∧
    (∀ k ∈ (chainedCycle O ts s).2,
      hasKeyL (get_or_init_action_context s).already_executed k = false) ∧
    ((chainedCycle O ts s).1.final_response = "" →
      ∀ k ∈ (chainedCycle O ts s).2,
        hasKeyL (get_or_init_action_context
          (chainedCycle O ts s).1).already_executed k = true) := by
  rw [chainedCycle_eq]
  have hmid := cycleMid_gctx O ts s
  have hnd' : NoDupKeys
      (get_or_init_action_context (cycleMid O ts s)).already_executed := by
    rw [hmid]
    exact hnd
  obtain ⟨h1, h2, h3, h4, h5⟩ := executeT_inv O.reg ts (cycleMid O ts s) hnd'
  rw [hmid] at h2 h4
  exact ⟨h1, h2, h3, h4, h5⟩

theorem hasKeyL_mono {l : List ExecutedAction} {ext : List ExecutedAction}
    {k : ActKey} (h : hasKeyL l k = true) : hasKeyL (l ++ ext) k = true := by
  rw [hasKeyL_append, h]
  rfl

/-- Keys recorded in a list cannot collide with keys fresh for it. -/
theorem not_sameKey_of_recorded_fresh {A : List ExecutedAction} {a b : ActKey}
    (ha : hasKeyL A a = true) (hb : hasKeyL A b = false) :
    sameKey a b = false := by
  by_contra hne
  have hs : sameKey a b = true := by
    revert hne
    cases sameKey a b <;> simp
  obtain ⟨ea, hea, hk⟩ := hasKeyL_iff.mp ha
  have : hasKeyL A b = true :=
    hasKeyL_iff.mpr ⟨ea, hea, sameKey_trans hk hs⟩
  rw [this] at hb
  cases hb

theorem distinctKeys_append {A : List ExecutedAction} {T U : List ActKey}
    (hT : distinctKeys T) (hU : distinctKeys U)
    (hrec : ∀ k ∈ T, hasKeyL A k = true)
    (hfr : ∀ k ∈ U, hasKeyL A k = false) : distinctKeys (T ++ U) := by
  simp only [distinctKeys] at hT hU ⊢
  rw [List.pairwise_append]
  exact ⟨hT, hU, fun a ha b hb =>
    not_sameKey_of_recorded_fresh (hrec a ha) (hfr b hb)⟩

/-- `loopEdge` can only fire without a final response. -/
theorem loopEdge_final {s : AgentState} (h : loopEdge s = true) :
    s.final_response = "" := by
  simp only [loopEdge, Bool.and_eq_true, decide_eq_true_eq] at h
  exact h.1.2

/-- Run-level dedup: across a whole chained loop, starting from a
duplicate-free context all of whose recorded keys cover the trace so far,
the combined invocation trace stays pairwise distinct. -/
theorem chainedLoop_inv (O : Oracles) (ts : Nat) :
    ∀ (fuel : Nat) (s : AgentState) (T : List ActKey),
      NoDupKeys (get_or_init_action_context s).already_executed →
      (∀ k ∈ T,
        hasKeyL (get_or_init_action_context s).already_executed k = true) →
      distinctKeys T →
      distinctKeys (T ++ (chainedLoop O ts fuel s).2.1) := by
  intro fuel
  induction fuel with
  | zero =>
      intro s T _ _ hT
      simpa [chainedLoop] using hT
  | succ fuel ih =>
      intro s T hnd hrec hT
      obtain ⟨hnd1, ⟨ext, hext⟩, hpair, hfr, hrecnew⟩ :=
        chainedCycle_inv O ts s hnd
      simp only [chainedLoop]
      by_cases hedge : loopEdge (chainedCycle O ts s).1 = true
      · rw [if_pos hedge]
        simp only []
        have hfin := loopEdge_final hedge
        have hTU : distinctKeys (T ++ (chainedCycle O ts s).2) :=
          distinctKeys_append hT hpair hrec hfr
        have hrec' : ∀ k ∈ T ++ (chainedCycle O ts s).2,
            hasKeyL (get_or_init_action_context
              (chainedCycle O ts s).1).already_executed k = true := by
          intro k hk
          rcases List.mem_append.mp hk with hk | hk
          · rw [hext]
            exact hasKeyL_mono (hrec k hk)
          · exact hrecnew hfin k hk
        have := ih (chainedCycle O ts s).1 (T ++ (chainedCycle O ts s).2)
          hnd1 hrec' hTU
        simpa [List.append_assoc] using this
      · rw [if_neg hedge]
        exact distinctKeys_append hT hpair hrec hfr

/-- The single-shot entry state of `execute_approved_tools` inside a
graph run. -/
def identifyMid (O : Oracles) (ts : Nat) (s : AgentState) : AgentState :=
  let pr := identifyActionsI O.propose1 ts s
  if pr.2 then { pr.1 with user_approved := O.approve 0 } else pr.1

theorem identifyMid_gctx (O : Oracles) (ts : Nat) (s : AgentState) :
    get_or_init_action_context (identifyMid O ts s) =
      get_or_init_action_context s := by
  obtain ⟨-, -, -, -, hg⟩ := identifyI_fields O.propose1 ts s
  simp only [identifyMid]
  split
  · rw [← hg]
    rfl
  · exact hg

theorem graphRun_toEnd {O : Oracles} {ts fuel : Nat} {s : AgentState}
    (h : tool_call_router s = .toEnd) :
    graphRun O ts fuel s = (s, []) := by
  simp only [graphRun, h]

theorem graphRun_identify {O : Oracles} {ts fuel : Nat} {s : AgentState}
    (h : tool_call_router s = .identify) :
    graphRun O ts fuel s =
      executeApprovedToolsT O.reg ts (identifyMid O ts s) := by
  simp only [graphRun, h]
  rfl

theorem graphRun_chained {O : Oracles} {ts fuel : Nat} {s : AgentState}
    (h : tool_call_router s = .chainedIdentify) :
    graphRun O ts fuel s =
      ((chainedLoop O ts fuel s).1, (chainedLoop O ts fuel s).2.1) := by
  simp only [graphRun, h]

/-- The set-add preserves the "no two structurally equal records"
invariant. -/
theorem add_executed_nodup (ctx : ActionContext) (n : String)
    (p : Option PyDict) (ts : Nat) (h : NoDupKeys ctx.already_executed) :
    NoDupKeys (ctx.add_executed_action n p ts).already_executed := by
  by_cases hd : hasKeyL ctx.already_executed ⟨n, normalize_params p⟩ = true
  · rw [add_executed_action_dup hd]
    exact h
  · have hf : hasKeyL ctx.already_executed ⟨n, normalize_params p⟩ = false := by
      revert hd
      cases hasKeyL ctx.already_executed ⟨n, normalize_params p⟩ <;> simp
    rw [add_executed_action_fresh hf]
    simp only [NoDupKeys] at h ⊢
    rw [List.pairwise_append]
    refine ⟨h, List.pairwise_singleton _ _, ?_⟩
    intro a ha b hb
    rw [List.mem_singleton] at hb
    subst hb
    exact (hasKeyL_false_iff.mp hf) a ha

theorem chainedLoop_nodup (O : Oracles) (ts : Nat) :
    ∀ (fuel : Nat) (s : AgentState),
      NoDupKeys (get_or_init_action_context s).already_executed →
      NoDupKeys (get_or_init_action_context
        (chainedLoop O ts fuel s).1).already_executed := by
  intro fuel
  induction fuel with
  | zero =>
      intro s h
      simpa [chainedLoop] using h
  | succ fuel ih =>
      intro s h
      obtain ⟨h1, -, -, -, -⟩ := chainedCycle_inv O ts s h
      simp only [chainedLoop]
      by_cases hedge : loopEdge (chainedCycle O ts s).1 = true
      · rw [if_pos hedge]
        exact ih _ h1
      · rw [if_neg hedge]
        exact h1

theorem applyFinally_id {s : AgentState} (h : s.final_response = "") :
    applyFinally s = s := by
  simp [applyFinally, h]

theorem chainedI_maxed {p : ActionContext → String → Except Unit (List ToolCall)}
    {ts : Nat} {s : AgentState}
    (h : s.iter_count + 1 > MAX_CHAIN_ITERATIONS) :
    chainedIdentifyActionsI p ts s =
      ({ s with
          iter_count := s.iter_count + 1
          final_response :=
            if s.tool_response = "" then NO_RESPONSE else s.tool_response
          requires_approval := false }, false) := by
  simp only [chainedIdentifyActionsI]
  rw [if_pos h]

theorem chainedI_err {p : ActionContext → String → Except Unit (List ToolCall)}
    {ts : Nat} {s : AgentState} {e : Unit}
    (h : ¬s.iter_count + 1 > MAX_CHAIN_ITERATIONS)
    (hp : p (get_or_init_action_context s) s.query = .error e) :
    chainedIdentifyActionsI p ts s =
      ({ s with
          iter_count := s.iter_count + 1
          final_response := FALLBACK_RESPONSE
          requires_approval := false }, false) := by
  simp only [chainedIdentifyActionsI]
  rw [if_neg h, show get_or_init_action_context
    { s with iter_count := s.iter_count + 1 } =
      get_or_init_action_context s from rfl, hp]

theorem chainedI_emptyProp
    {p : ActionContext → String → Except Unit (List ToolCall)}
    {ts : Nat} {s : AgentState}
    (h : ¬s.iter_count + 1 > MAX_CHAIN_ITERATIONS)
    (hp : p (get_or_init_action_context s) s.query = .ok []) :
    chainedIdentifyActionsI p ts s =
      ({ s with
          iter_count := s.iter_count + 1
          final_response :=
            if s.tool_response = "" then NO_RESPONSE else s.tool_response
          requires_approval := false }, false) := by
  simp only [chainedIdentifyActionsI]
  rw [if_neg h, show get_or_init_action_context
    { s with iter_count := s.iter_count + 1 } =
      get_or_init_action_context s from rfl, hp]

theorem chainedI_dup {p : ActionContext → String → Except Unit (List ToolCall)}
    {ts : Nat} {s : AgentState} {tc : ToolCall} {rest : List ToolCall}
    (h : ¬s.iter_count + 1 > MAX_CHAIN_ITERATIONS)
    (hp : p (get_or_init_action_context s) s.query = .ok (tc :: rest))
    (hd : hasKeyL (get_or_init_action_context s).already_executed tc.key = true) :
    chainedIdentifyActionsI p ts s =
      ({ s with
          iter_count := s.iter_count + 1
          action_context := .stored (get_or_init_action_context s) }, false) := by
  have hd' : ((get_or_init_action_context s).already_executed.any fun ea =>
      isDuplicate ea (ExecutedAction.make tc.name (some tc.args) ts)) = true := hd
  simp only [chainedIdentifyActionsI]
  rw [if_neg h, show get_or_init_action_context
    { s with iter_count := s.iter_count + 1 } =
      get_or_init_action_context s from rfl, hp]
  simp only []
  rw [hd']
  simp

theorem chainedI_fresh {p : ActionContext → String → Except Unit (List ToolCall)}
    {ts : Nat} {s : AgentState} {tc : ToolCall} {rest : List ToolCall}
    (h : ¬s.iter_count + 1 > MAX_CHAIN_ITERATIONS)
    (hp : p (get_or_init_action_context s) s.query = .ok (tc :: rest))
    (hd : hasKeyL (get_or_init_action_context s).already_executed tc.key = false) :
    chainedIdentifyActionsI p ts s =
      ({ s with
          iter_count := s.iter_count + 1
          identified_actions := [tc]
          requires_approval := true
          actions_to_review := some (mkReview s.query [tc])
          action_context := .stored (get_or_init_action_context s) }, true) := by
  have hd' : ((get_or_init_action_context s).already_executed.any fun ea =>
      isDuplicate ea (ExecutedAction.make tc.name (some tc.args) ts)) = false := hd
  simp only [chainedIdentifyActionsI]
  rw [if_neg h, show get_or_init_action_context
    { s with iter_count := s.iter_count + 1 } =
      get_or_init_action_context s from rfl, hp]
  simp only []
  rw [hd']
  simp

theorem identifyI_empty {p : String → List ToolCall} {ts : Nat}
    {s : AgentState} (hp : p s.query = []) :
    identifyActionsI p ts s =
      ({ s with
          tool_calls := []
          final_response := NO_RESPONSE
          requires_approval := false }, false) := by
  simp only [identifyActionsI]
  rw [hp]
  rfl

theorem identifyI_allDup {p : String → List ToolCall} {ts : Nat}
    {s : AgentState} (hne : p s.query ≠ [])
    (hflt : (p s.query).filter (fun tc =>
      !(hasKeyL (get_or_init_action_context s).already_executed tc.key)) = []) :
    identifyActionsI p ts s =
      ({ s with
          tool_calls := []
          final_response :=
            if s.tool_response = "" then ALREADY_COMPLETED_RESPONSE
            else s.tool_response
          requires_approval := false }, false) := by
  have hne' : (p s.query).isEmpty = false := by
    cases hx : p s.query
    · exact absurd hx hne
    · rfl
  have hflt2 : (p s.query).filter (fun tc =>
      !((get_or_init_action_context
          { s with tool_calls := p s.query }).already_executed.any
        (fun ea => isDuplicate ea
          (ExecutedAction.make tc.name (some tc.args) ts)))) = [] := hflt
  simp only [identifyActionsI]
  rw [hne']
  simp only [Bool.false_eq_true, if_false]
  rw [hflt2]
  rfl

theorem identifyI_fresh {p : String → List ToolCall} {ts : Nat}
    {s : AgentState} (hne : p s.query ≠ [])
    (hflt : (p s.query).filter (fun tc =>
      !(hasKeyL (get_or_init_action_context s).already_executed tc.key)) ≠ []) :
    identifyActionsI p ts s =
      ({ s with
          tool_calls := (p s.query).filter (fun tc =>
            !(hasKeyL (get_or_init_action_context s).already_executed tc.key))
          action_context := .stored (get_or_init_action_context s)
          requires_approval := true
          actions_to_review := some (mkReview s.query ((p s.query).filter
            (fun tc => !(hasKeyL
              (get_or_init_action_context s).already_executed tc.key)))) },
        true) := by
  have hne' : (p s.query).isEmpty = false := by
    cases hx : p s.query
    · exact absurd hx hne
    · rfl
  simp only [identifyActionsI]
  rw [hne']
  simp only [Bool.false_eq_true, if_false]
  rw [show (p s.query).filter (fun tc =>
      !((get_or_init_action_context
          { s with tool_calls := p s.query }).already_executed.any
        (fun ea => isDuplicate ea
          (ExecutedAction.make tc.name (some tc.args) ts)))) =
      (p s.query).filter (fun tc =>
        !(hasKeyL (get_or_init_action_context s).already_executed tc.key))
    from rfl]
  have hflt3 : ((p s.query).filter (fun tc =>
      !(hasKeyL (get_or_init_action_context s).already_executed tc.key))).isEmpty
      = false := by
    cases hx : (p s.query).filter (fun tc =>
      !(hasKeyL (get_or_init_action_context s).already_executed tc.key))
    · exact absurd hx hflt
    · rfl
  rw [hflt3]
  simp only [Bool.false_eq_true, if_false]
  rfl

/-- Trivial collaborators used to instantiate hypothesised theorems on a
concrete run: the proposer finds nothing, the registry is empty, the
approver always approves. -/
def trivOracles : Oracles :=
  { propose1 := fun _ => []
    proposeC := fun _ _ => .ok []
    reg := fun _ => none
    approve := fun _ => true }

/-! ## The claims -/

/-- C1: `add_executed_action` is a set-add keyed by the normalized form,
so `alreadyExecuted` never comes to contain two structurally-equal
ActionRecords; and in any full workflow run (single-shot or chained, any
proposer/registry/approval behaviour) started from a duplicate-free
context, the resulting context is duplicate-free and the Executor
invocation trace never contains the same normalized `(name, parameters)`
pair twice. -/
theorem c1_dedup_invariant :
    (∀ (ctx : ActionContext) (n : String) (p : Option PyDict) (ts : Nat),
      NoDupKeys ctx.already_executed →
      NoDupKeys (ctx.add_executed_action n p ts).already_executed) ∧
    (∀ (O : Oracles) (ts fuel : Nat) (s : AgentState),
      NoDupKeys (get_or_init_action_context s).already_executed →
      NoDupKeys (get_or_init_action_context
        (graphRun O ts fuel s).1).already_executed ∧
      distinctKeys (graphRun O ts fuel s).2) := by
  refine ⟨add_executed_nodup, ?_⟩
  intro O ts fuel s h
  cases hroute : tool_call_router s with
  | toEnd =>
      rw [graphRun_toEnd hroute]
      exact ⟨h, by simp [distinctKeys]⟩
  | identify =>
      rw [graphRun_identify hroute]
      have hg := identifyMid_gctx O ts s
      have h' : NoDupKeys
          (get_or_init_action_context (identifyMid O ts s)).already_executed := by
        rw [hg]
        exact h
      obtain ⟨h1, -, h3, -, -⟩ := executeT_inv O.reg ts (identifyMid O ts s) h'
      exact ⟨h1, h3⟩
  | chainedIdentify =>
      rw [graphRun_chained hroute]
      refine ⟨chainedLoop_nodup O ts fuel s h, ?_⟩
      have hloop := chainedLoop_inv O ts fuel s [] h (by simp)
        (by simp [distinctKeys])
      simpa using hloop

/-- A context that has already executed `ta(k=v)`. -/
def cs2_ctx : ActionContext :=
  ⟨[], [ExecutedAction.make "ta" (some [("k", "v")]) 0]⟩

/-- A chained workflow state with accumulated output and that history. -/
def cs2_state : AgentState :=
  { initialState "find ta" true with
      action_context := .stored cs2_ctx
      tool_response := "ta: r1\n" }

/-- A proposer returning a candidate that duplicates the executed action
(up to parameter-key case). -/
def cs2_prop : ActionContext → String → Except Unit (List ToolCall) :=
  fun _ _ => .ok [⟨"ta", [("K", "v")], "1"⟩]

/-- C2, counterexample: the proposer yields a duplicate of an
already-executed action, the accumulated response is non-empty, yet
`chained_identify_actions` does **not** terminate the workflow: it leaves
`final_response` unset instead of setting it to the accumulated
response. -/
theorem c2_counterexample :
    hasKeyL (get_or_init_action_context cs2_state).already_executed
      (ToolCall.mk "ta" [("K", "v")] "1").key = true ∧
    cs2_state.tool_response ≠ "" ∧
    (chained_identify_actions cs2_prop 0 cs2_state).final_response = "" ∧
    (chained_identify_actions cs2_prop 0 cs2_state).final_response ≠
      cs2_state.tool_response := by
  refine ⟨by decide, by decide, ?_, ?_⟩ <;> decide

/-- C2 (amended): in chained mode below the iteration bound, a proposer
yielding no candidate terminates the step with the accumulated response
(or the no-result sentinel); but a proposer yielding a duplicate of an
already-executed action does **not** terminate the workflow — the step
stores the context back and returns with `final_response` and
`requires_approval` untouched and without reaching its suspension point
(skip-and-keep-proposing rather than terminate-on-duplicate). -/
theorem c2_amended_terminate_or_continue
    (p : ActionContext → String → Except Unit (List ToolCall)) (ts : Nat)
    (s : AgentState) (hle : ¬s.iter_count + 1 > MAX_CHAIN_ITERATIONS) :
    (p (get_or_init_action_context s) s.query = .ok [] →
      (chained_identify_actions p ts s).final_response =
        (if s.tool_response = "" then NO_RESPONSE else s.tool_response) ∧
      (chained_identify_actions p ts s).requires_approval = false) ∧
    (∀ tc rest,
      p (get_or_init_action_context s) s.query = .ok (tc :: rest) →
      hasKeyL (get_or_init_action_context s).already_executed tc.key = true →
      (chained_identify_actions p ts s).final_response = s.final_response ∧
      (chained_identify_actions p ts s).requires_approval =
        s.requires_approval ∧
      (chained_identify_actions p ts s).action_context =
        .stored (get_or_init_action_context s) ∧
      (chainedIdentifyActionsI p ts s).2 = false) := by
  constructor
  · intro hp
    simp only [chained_identify_actions]
    rw [chainedI_emptyProp hle hp]
    exact ⟨rfl, rfl⟩
  · intro tc rest hp hd
    simp only [chained_identify_actions]
    rw [chainedI_dup hle hp hd]
    exact ⟨rfl, rfl, rfl, rfl⟩

/-- Witness for the amended C2 at a concrete empty proposal. -/
theorem c2_amended_witness :
    (chained_identify_actions (fun _ _ => Except.ok []) 0
      (initialState "q" true)).final_response = NO_RESPONSE ∧
    (chained_identify_actions (fun _ _ => Except.ok []) 0
      (initialState "q" true)).requires_approval = false := by
  have h := (c2_amended_terminate_or_continue (fun _ _ => Except.ok []) 0
    (initialState "q" true) (by decide)).1 rfl
  simpa using h

/-- C4: when the user has not approved, `execute_approved_tools` sets the
cancellation sentinel, clears `requiresApproval`, performs no Executor
invocation, and leaves `toolResponse` and `actionContext` (and everything
else) unchanged. -/
theorem c4_reject_cancels (reg : Registry) (ts : Nat) (s : AgentState)
    (h : s.user_approved = false) :
    executeApprovedToolsT reg ts s =
      ({ s with
          final_response := CANCELLED_RESPONSE
          requires_approval := false }, []) ∧
    (execute_approved_tools reg ts s).final_response =
      "Task execution cancelled by user." ∧
    (execute_approved_tools reg ts s).requires_approval = false ∧
    (execute_approved_tools reg ts s).tool_response = s.tool_response ∧
    (execute_approved_tools reg ts s).action_context = s.action_context ∧
    (executeApprovedToolsT reg ts s).2 = [] := by
  have he : executeApprovedToolsT reg ts s =
      ({ s with
          final_response := CANCELLED_RESPONSE
          requires_approval := false }, []) := execT_cancel h
  simp only [execute_approved_tools, he]
  simp
  rfl

/-- Witness for C4 on a concrete state. -/
theorem c4_reject_cancels_witness :
    executeApprovedToolsT (fun _ => none) 0 (initialState "list users" false) =
      ({ initialState "list users" false with
          final_response := CANCELLED_RESPONSE
          requires_approval := false }, []) :=
  (c4_reject_cancels (fun _ => none) 0 (initialState "list users" false) rfl).1

/-- A single-shot state whose only candidate was already executed. -/
def cs7_ctx : ActionContext := ⟨[], [ExecutedAction.make "ta" (some []) 0]⟩

def cs7_state : AgentState :=
  { initialState "do ta" false with
      action_context := .stored cs7_ctx
      tool_response := "ta: r1\n" }

def cs7_prop : String → List ToolCall := fun _ => [⟨"ta", [], "1"⟩]

/-- C7, counterexample: candidates are returned and filtering empties the
list, but because the accumulated `tool_response` is non-empty the node
terminates with the accumulated response, not with the fixed "already
completed" sentinel the claim promises. -/
theorem c7_counterexample :
    cs7_prop cs7_state.query ≠ [] ∧
    (cs7_prop cs7_state.query).filter (fun tc =>
      !(hasKeyL (get_or_init_action_context cs7_state).already_executed
        tc.key)) = [] ∧
    (identify_actions cs7_prop 0 cs7_state).final_response ≠
      ALREADY_COMPLETED_RESPONSE ∧
    (identify_actions cs7_prop 0 cs7_state).final_response =
      cs7_state.tool_response := by
  refine ⟨by decide, by decide, ?_, ?_⟩ <;> decide

/-- C7 (amended): zero candidates terminate with the no-result sentinel
and `requiresApproval = false`; candidates all filtered out as duplicates
terminate without requesting approval, with `finalResponse` equal to the
accumulated `toolResponse` when that is non-empty and to the "already
completed" sentinel only when it is empty. -/
theorem c7_amended_no_candidates_or_all_dup (p : String → List ToolCall)
    (ts : Nat) (s : AgentState) :
    (p s.query = [] →
      (identify_actions p ts s).final_response = NO_RESPONSE ∧
      (identify_actions p ts s).requires_approval = false) ∧
    (p s.query ≠ [] →
      (p s.query).filter (fun tc =>
        !(hasKeyL (get_or_init_action_context s).already_executed tc.key))
          = [] →
      (identify_actions p ts s).final_response =
        (if s.tool_response = "" then ALREADY_COMPLETED_RESPONSE
          else s.tool_response) ∧
      (identify_actions p ts s).requires_approval = false ∧
      (identifyActionsI p ts s).2 = false) := by
  constructor
  · intro hp
    simp only [identify_actions]
    rw [identifyI_empty hp]
    exact ⟨rfl, rfl⟩
  · intro hne hflt
    simp only [identify_actions]
    rw [identifyI_allDup hne hflt]
    exact ⟨rfl, rfl, rfl⟩

/-- Witness for the amended C7 at a concrete empty proposal. -/
theorem c7_amended_witness :
    (identify_actions (fun _ => []) 0
      (initialState "q" false)).final_response = NO_RESPONSE ∧
    (identify_actions (fun _ => []) 0
      (initialState "q" false)).requires_approval = false :=
  (c7_amended_no_candidates_or_all_dup (fun _ => []) 0
    (initialState "q" false)).1 rfl

/-- Witness for C1 on a concrete run. -/
theorem c1_dedup_invariant_witness :
    NoDupKeys (get_or_init_action_context
      (initialState "list users" false)).already_executed ∧
    distinctKeys (graphRun trivOracles 0 5 (initialState "list users" false)).2 := by
  have h : NoDupKeys (get_or_init_action_context
      (initialState "list users" false)).already_executed := by
    simp [NoDupKeys, initialState, get_or_init_action_context]
  exact ⟨h, (c1_dedup_invariant.2 trivOracles 0 5
    (initialState "list users" false) h).2⟩

/-- First action of the C6 scenario: succeeds. -/
def cs6_a : ToolCall := ⟨"search_user_by_name", [("name", "bob")], "1"⟩

/-- Second action of the C6 scenario: its registry lookup misses, so the
loop raises after the first action already ran. -/
def cs6_b : ToolCall := ⟨"update_user", [("id", "7")], "2"⟩

def cs6_reg : Registry := fun n =>
  if n = "search_user_by_name" then some (fun _ => .ok "found user 7")
  else none

def cs6_state : AgentState :=
  { initialState "find bob then update" false with
      user_approved := true
      tool_calls := [cs6_a, cs6_b] }

/-- C6: the code violates the claim. In a batch whose second action fails
after the first succeeded, the first action **was** invoked (trace) and
its `"name: result"` line is in `tool_response`, yet the persisted
`action_context` of the resulting state is byte-for-byte the pre-batch one
(the `state["action_context"] = action_context.dict()` write sits after
the loop and is skipped by the raise), so `already_executed` stays empty
and a retried request would re-invoke the side effect. -/
theorem c6_batch_failure_loses_records :
    (executeApprovedToolsT cs6_reg 0 cs6_state).2 = [cs6_a.key] ∧
    (executeApprovedToolsT cs6_reg 0 cs6_state).1.tool_response =
      "search_user_by_name: found user 7\n" ∧
    (executeApprovedToolsT cs6_reg 0 cs6_state).1.final_response =
      FALLBACK_RESPONSE ∧
    (executeApprovedToolsT cs6_reg 0 cs6_state).1.action_context =
      cs6_state.action_context ∧
    (get_or_init_action_context
      (executeApprovedToolsT cs6_reg 0 cs6_state).1).already_executed = [] := by
  refine ⟨?_, ?_, ?_, ?_, ?_⟩ <;> decide

/-- The `"name: result"` lines of a batch of successful invocations with
expected results `res`. -/
def batchLog (res : ToolCall → String) : List ToolCall → String
  | [] => ""
  | tc :: rest => entryOf tc (res tc) ++ batchLog res rest

theorem hasKeyL_singleton (ea : ExecutedAction) (k : ActKey) :
    hasKeyL [ea] k = sameKey ea.key k := by
  simp [hasKeyL]

theorem make_key_eq (tc : ToolCall) (ts : Nat) :
    (ExecutedAction.make tc.name (some tc.args) ts).key = tc.key := rfl

/-- Running the loop over a prefix of fresh, pairwise-distinct,
all-successful calls just executes them in order: the log grows by their
entries, the invocation trace by their keys, and keys fresh for the
whole prefix stay fresh in the extended context. -/
theorem runBatch_ok_chain (reg : Registry) (ts : Nat) (res : ToolCall → String) :
    ∀ (l rest : List ToolCall) (ctx : ActionContext) (tr : String),
      (∀ tc ∈ l, hasKeyL ctx.already_executed tc.key = false) →
      List.Pairwise (fun a b => sameKey a.key b.key = false) l →
      (∀ tc ∈ l, ∃ f, reg tc.name = some f ∧ f tc.args = .ok (res tc)) →
      ∃ ctx2 : ActionContext,
        runBatch reg ts (l ++ rest) ctx tr =
          { runBatch reg ts rest ctx2 (tr ++ batchLog res l) with
              invoked := l.map ToolCall.key ++
                (runBatch reg ts rest ctx2 (tr ++ batchLog res l)).invoked } ∧
        (∀ k : ActKey, hasKeyL ctx.already_executed k = false →
          (∀ tc ∈ l, sameKey tc.key k = false) →
          hasKeyL ctx2.already_executed k = false) := by
  intro l
  induction l with
  | nil =>
      intro rest ctx tr _ _ _
      refine ⟨ctx, ?_, fun k hk _ => hk⟩
      rw [show batchLog res [] = "" from rfl, String.append_empty]
      simp
  | cons tc l ih =>
      intro rest ctx tr hfr hpw hok
      have hfr0 : hasKeyL ctx.already_executed tc.key = false :=
        hfr tc (List.mem_cons_self _ _)
      obtain ⟨f, hregf, hff⟩ := hok tc (List.mem_cons_self _ _)
      rw [List.cons_append, runBatch_cons_ok hfr0 hregf hff]
      have hstep := @stepCtx_already ctx tc (res tc) ts hfr0
      have hpwh := (List.pairwise_cons.mp hpw).1
      have hfr' : ∀ tc' ∈ l,
          hasKeyL (stepCtx ctx tc (res tc) ts).already_executed tc'.key
            = false := by
        intro tc' h'
        rw [hstep, hasKeyL_append]
        rw [hfr tc' (List.mem_cons_of_mem _ h'), hasKeyL_singleton,
          make_key_eq, hpwh tc' h']
        rfl
      obtain ⟨ctx2, heq, htrans⟩ := ih rest (stepCtx ctx tc (res tc) ts)
        (tr ++ entryOf tc (res tc)) hfr' (List.pairwise_cons.mp hpw).2
        (fun tc' h' => hok tc' (List.mem_cons_of_mem _ h'))
      refine ⟨ctx2, ?_, ?_⟩
      · rw [heq]
        rw [show batchLog res (tc :: l) =
          entryOf tc (res tc) ++ batchLog res l from rfl]
        rw [← String.append_assoc]
        simp
      · intro k hk hall
        apply htrans
        · rw [hstep, hasKeyL_append, hk, hasKeyL_singleton, make_key_eq,
            hall tc (List.mem_cons_self _ _)]
          rfl
        · intro tc' h'
          exact hall tc' (List.mem_cons_of_mem _ h')

/-- C3: single-shot fail-fast. With a batch `l1 ++ bad :: l2` of fresh,
pairwise-distinct actions where every action of `l1` succeeds with result
`res` and `bad` either misses the registry or raises when invoked:
`finalResponse` is the fixed failure sentinel, `toolResponse` gained
exactly the `"name: result"` lines of `l1` (the successes before the
failure), and the Executor was invoked exactly on `l1` — plus on `bad`
itself when `bad`'s operation raised — never on any action of `l2`. -/
theorem c3_fail_fast (reg : Registry) (ts : Nat) (s : AgentState)
    (l1 l2 : List ToolCall) (bad : ToolCall) (res : ToolCall → String)
    (hch : s.chained = false) (hap : s.user_approved = true)
    (htc : s.tool_calls = l1 ++ bad :: l2)
    (hfr : ∀ tc ∈ l1 ++ [bad],
      hasKeyL (get_or_init_action_context s).already_executed tc.key = false)
    (hpw : List.Pairwise (fun a b => sameKey a.key b.key = false) (l1 ++ [bad]))
    (hok : ∀ tc ∈ l1, ∃ f, reg tc.name = some f ∧ f tc.args = .ok (res tc))
    (hbad : reg bad.name = none ∨
      ∃ f, reg bad.name = some f ∧ ∃ e, f bad.args = .error e) :
    (execute_approved_tools reg ts s).final_response = FALLBACK_RESPONSE ∧
    (execute_approved_tools reg ts s).tool_response =
      s.tool_response ++ batchLog res l1 ∧
    ((executeApprovedToolsT reg ts s).2 = l1.map ToolCall.key ∨
      (executeApprovedToolsT reg ts s).2 =
        l1.map ToolCall.key ++ [bad.key]) := by
  have hTE : toExecute s = l1 ++ bad :: l2 := by
    simp [toExecute, hch, htc]
  have hne : toExecute s ≠ [] := by
    rw [hTE]
    simp
  have hcross : ∀ tc ∈ l1, sameKey tc.key bad.key = false := by
    intro tc h
    exact (List.pairwise_append.mp hpw).2.2 tc h bad (List.mem_singleton_self _)
  obtain ⟨ctx2, heq, htrans⟩ := runBatch_ok_chain reg ts res l1 (bad :: l2)
    (get_or_init_action_context s) s.tool_response
    (fun tc h => hfr tc (List.mem_append_left _ h))
    (List.pairwise_append.mp hpw).1 hok
  have hbfresh : hasKeyL ctx2.already_executed bad.key = false :=
    htrans bad.key
      (hfr bad (List.mem_append_right _ (List.mem_singleton_self _))) hcross
  rcases hbad with hmiss | ⟨f, hrf, e, hfe⟩
  · have hR : runBatch reg ts (toExecute s) (get_or_init_action_context s)
        s.tool_response =
        ⟨s.tool_response ++ batchLog res l1, ctx2, l1.map ToolCall.key,
          true⟩ := by
      rw [hTE, heq, @runBatch_cons_miss reg ts bad l2 ctx2
        (s.tool_response ++ batchLog res l1) hbfresh hmiss]
      simp
    have hr : (runBatch reg ts (toExecute s) (get_or_init_action_context s)
        s.tool_response).raised = true := by
      rw [hR]
    simp only [execute_approved_tools]
    rw [execT_raised hap hne hr]
    refine ⟨?_, ?_, Or.inl ?_⟩
    · rw [applyFinally_final]
    · rw [applyFinally_toolResponse, hR]
    · rw [hR]
  · have hR : runBatch reg ts (toExecute s) (get_or_init_action_context s)
        s.tool_response =
        ⟨s.tool_response ++ batchLog res l1, ctx2,
          l1.map ToolCall.key ++ [bad.key], true⟩ := by
      rw [hTE, heq, @runBatch_cons_error reg ts bad l2 ctx2
        (s.tool_response ++ batchLog res l1) f e hbfresh hrf hfe]
    have hr : (runBatch reg ts (toExecute s) (get_or_init_action_context s)
        s.tool_response).raised = true := by
      rw [hR]
    simp only [execute_approved_tools]
    rw [execT_raised hap hne hr]
    refine ⟨?_, ?_, Or.inr ?_⟩
    · rw [applyFinally_final]
    · rw [applyFinally_toolResponse, hR]
    · rw [hR]

def cs3_a : ToolCall := ⟨"ta", [("x", "1")], "1"⟩

def cs3_b : ToolCall := ⟨"tb", [], "2"⟩

def cs3_c : ToolCall := ⟨"tcc", [], "3"⟩

def cs3_reg : Registry := fun n =>
  if n = "ta" then some (fun _ => .ok "ra")
  else if n = "tb" then some (fun _ => .error ())
  else some (fun _ => .ok "rc")

def cs3_state : AgentState :=
  { initialState "batch" false with
      user_approved := true
      tool_calls := [cs3_a, cs3_b, cs3_c] }

/-- Witness for C3: three actions, the second raises — one recorded
success, failure sentinel, third never invoked. -/
theorem c3_fail_fast_witness :
    (execute_approved_tools cs3_reg 0 cs3_state).final_response =
      FALLBACK_RESPONSE ∧
    (execute_approved_tools cs3_reg 0 cs3_state).tool_response =
      cs3_state.tool_response ++ batchLog (fun _ => "ra") [cs3_a] ∧
    ((executeApprovedToolsT cs3_reg 0 cs3_state).2 =
        [cs3_a].map ToolCall.key ∨
      (executeApprovedToolsT cs3_reg 0 cs3_state).2 =
        [cs3_a].map ToolCall.key ++ [cs3_b.key]) :=
  c3_fail_fast cs3_reg 0 cs3_state [cs3_a] [cs3_c] cs3_b (fun _ => "ra")
    rfl rfl rfl (by decide) (by decide)
    (by
      intro tc h
      rw [List.mem_singleton] at h
      subst h
      exact ⟨fun _ => .ok "ra", rfl, rfl⟩)
    (Or.inr ⟨fun _ => .error (), rfl, (), rfl⟩)

theorem postBatchState_tr (reg : Registry) (ts : Nat) (s : AgentState) :
    (postBatchState reg ts s).tool_response =
      (runBatch reg ts (toExecute s) (get_or_init_action_context s)
        s.tool_response).tool_response := by
  simp only [postBatchState]
  split <;> rfl

/-- Whatever happens, the loop only appends to the accumulated log. -/
theorem runBatch_tr_prefix (reg : Registry) (ts : Nat) :
    ∀ (l : List ToolCall) (ctx : ActionContext) (tr : String),
      ∃ ext, (runBatch reg ts l ctx tr).tool_response = tr ++ ext := by
  intro l
  induction l with
  | nil =>
      intro ctx tr
      exact ⟨"", by rw [runBatch_nil, String.append_empty]⟩
  | cons tc rest ih =>
      intro ctx tr
      by_cases hd : hasKeyL ctx.already_executed tc.key = true
      · rw [runBatch_cons_skip hd]
        obtain ⟨ext, hext⟩ := ih ctx
          (tr ++ tc.name ++ ": Skipped - already executed with same parameters\n")
        refine ⟨tc.name ++
          (": Skipped - already executed with same parameters\n" ++ ext), ?_⟩
        rw [hext]
        simp [String.append_assoc]
      · have hf : hasKeyL ctx.already_executed tc.key = false := by
          revert hd
          cases hasKeyL ctx.already_executed tc.key <;> simp
        cases hreg : reg tc.name with
        | none =>
            rw [runBatch_cons_miss hf hreg]
            exact ⟨"", by rw [String.append_empty]⟩
        | some func =>
            cases hff : func tc.args with
            | error e =>
                rw [runBatch_cons_error hf hreg hff]
                exact ⟨"", by rw [String.append_empty]⟩
            | ok r =>
                rw [runBatch_cons_ok hf hreg hff]
                obtain ⟨ext, hext⟩ := ih (stepCtx ctx tc r ts)
                  (tr ++ entryOf tc r)
                refine ⟨entryOf tc r ++ ext, ?_⟩
                rw [show ({ runBatch reg ts rest (stepCtx ctx tc r ts)
                    (tr ++ entryOf tc r) with
                    invoked := tc.key :: (runBatch reg ts rest
                      (stepCtx ctx tc r ts) (tr ++ entryOf tc r)).invoked} :
                  BatchResult).tool_response =
                  (runBatch reg ts rest (stepCtx ctx tc r ts)
                    (tr ++ entryOf tc r)).tool_response from rfl, hext]
                rw [String.append_assoc]

/-- C9: `toolResponse` is append-only. Neither identify node touches it;
`execute_approved_tools` only appends (on every path, including
cancellation, raises and skips); and a successful invocation appends
exactly its one `"name: result"` line. -/
theorem c9_tool_response_append_only :
    (∀ (p : String → List ToolCall) (ts : Nat) (s : AgentState),
      ∃ ext, (identify_actions p ts s).tool_response =
        s.tool_response ++ ext) ∧
    (∀ (p : ActionContext → String → Except Unit (List ToolCall)) (ts : Nat)
      (s : AgentState),
      ∃ ext, (chained_identify_actions p ts s).tool_response =
        s.tool_response ++ ext) ∧
    (∀ (reg : Registry) (ts : Nat) (s : AgentState),
      ∃ ext, (execute_approved_tools reg ts s).tool_response =
        s.tool_response ++ ext) ∧
    (∀ (reg : Registry) (ts : Nat) (tc : ToolCall) (ctx : ActionContext)
      (tr r : String) (f : PyDict → Except Unit String),
      hasKeyL ctx.already_executed tc.key = false →
      reg tc.name = some f → f tc.args = .ok r →
      (runBatch reg ts [tc] ctx tr).tool_response = tr ++ entryOf tc r) := by
  refine ⟨?_, ?_, ?_, ?_⟩
  · intro p ts s
    refine ⟨"", ?_⟩
    rw [String.append_empty]
    exact (identifyI_fields p ts s).2.2.1
  · intro p ts s
    refine ⟨"", ?_⟩
    rw [String.append_empty]
    exact (chainedI_fields p ts s).2.2.1
  · intro reg ts s
    by_cases hap : s.user_approved = true
    · by_cases hemp : toExecute s = []
      · refine ⟨"", ?_⟩
        rw [String.append_empty]
        simp only [execute_approved_tools]
        rw [execT_empty hap hemp]
        rw [applyFinally_toolResponse]
      · obtain ⟨ext, hext⟩ := runBatch_tr_prefix reg ts (toExecute s)
          (get_or_init_action_context s) s.tool_response
        by_cases hra : (runBatch reg ts (toExecute s)
            (get_or_init_action_context s) s.tool_response).raised = true
        · refine ⟨ext, ?_⟩
          simp only [execute_approved_tools]
          rw [execT_raised hap hemp hra]
          rw [applyFinally_toolResponse]
          exact hext
        · have hra' : (runBatch reg ts (toExecute s)
              (get_or_init_action_context s) s.tool_response).raised
                = false := by
            revert hra
            cases (runBatch reg ts (toExecute s)
              (get_or_init_action_context s) s.tool_response).raised <;> simp
          refine ⟨ext, ?_⟩
          simp only [execute_approved_tools]
          rw [execT_ok hap hemp hra']
          rw [applyFinally_toolResponse, postBatchState_tr]
          exact hext
    · have hap' : s.user_approved = false := by
        revert hap
        cases s.user_approved <;> simp
      refine ⟨"", ?_⟩
      rw [String.append_empty]
      simp only [execute_approved_tools]
      rw [execT_cancel hap']
  · intro reg ts tc ctx tr r f hfr hreg hff
    rw [runBatch_cons_ok hfr hreg hff, runBatch_nil]

/-- The same state with a fresh empty context stored. -/
def resetCtx (s : AgentState) : AgentState :=
  { s with action_context := ACStore.stored {} }

/-- Forget the `action_context` entry (for comparing behaviour modulo the
stored context representation). -/
def eraseCtxField (s : AgentState) : AgentState :=
  { s with action_context := ACStore.missing }

/-- C10: a missing, non-dict, or unparsable `action_context` never fails a
step: `get_or_init_action_context` falls back to a fresh empty context,
and every node behaves exactly (up to the stored context field) as if the
state carried a fresh empty context — the duplicate-detection history is
silently reset, and the Executor invocations are identical. -/
theorem c10_corrupt_context_resets (p1 : String → List ToolCall)
    (pC : ActionContext → String → Except Unit (List ToolCall))
    (reg : Registry) (ts : Nat) (s : AgentState)
    (hbad : s.action_context = .missing ∨ s.action_context = .notDict ∨
      s.action_context = .badDict) :
    get_or_init_action_context s = ({} : ActionContext) ∧
    eraseCtxField (identify_actions p1 ts s) =
      eraseCtxField (identify_actions p1 ts (resetCtx s)) ∧
    eraseCtxField (chained_identify_actions pC ts s) =
      eraseCtxField (chained_identify_actions pC ts (resetCtx s)) ∧
    eraseCtxField (execute_approved_tools reg ts s) =
      eraseCtxField (execute_approved_tools reg ts (resetCtx s)) ∧
    (executeApprovedToolsT reg ts s).2 =
      (executeApprovedToolsT reg ts (resetCtx s)).2 := by
  obtain ⟨q, ch, tcs, trr, fr, ua, ra, ar, ac, ic, ia⟩ := s
  simp only [] at hbad
  rcases hbad with h | h | h <;> subst h <;>
    refine ⟨rfl, ?_, ?_, ?_, ?_⟩ <;>
    simp only [identify_actions, identifyActionsI, chained_identify_actions,
      chainedIdentifyActionsI, execute_approved_tools, executeApprovedToolsT,
      get_or_init_action_context, eraseCtxField, resetCtx, applyFinally] <;>
    (repeat' split) <;> rfl

/-- Witness for C10 at a concrete corrupted state. -/
theorem c10_corrupt_context_resets_witness :
    get_or_init_action_context
      ({ initialState "q" false with action_context := ACStore.missing }) =
      ({} : ActionContext) :=
  (c10_corrupt_context_resets (fun _ => []) (fun _ _ => .ok [])
    (fun _ => none) 0
    { initialState "q" false with action_context := ACStore.missing }
    (Or.inl rfl)).1

/-- Witness for C9 at a concrete single-action batch. -/
theorem c9_append_only_witness :
    (runBatch (fun _ => some (fun _ => Except.ok "r1")) 0 [cs3_a]
      ⟨[], []⟩ "log\n").tool_response = "log\n" ++ entryOf cs3_a "r1" :=
  c9_tool_response_append_only.2.2.2 (fun _ => some (fun _ => Except.ok "r1"))
    0 cs3_a ⟨[], []⟩ "log\n" "r1" (fun _ => Except.ok "r1") (by decide) rfl rfl

/-! ## Normalization up to key case and order (C8) -/

/-- The pairs of a dict with their keys lower-cased: the abstract
"differ only in key letter-case or key order" relation compares these up
to permutation. -/
def lowerPairs (d : PyDict) : PyDict :=
  d.map (fun p => (lowerStr p.1, p.2))

theorem insertSorted_perm (k : String) (l : List String) :
    (insertSorted k l).Perm (k :: l) := by
  induction l with
  | nil => exact List.Perm.refl _
  | cons x xs ih =>
      simp only [insertSorted]
      split
      · exact List.Perm.refl _
      · exact (List.Perm.cons x ih).trans (List.Perm.swap k x xs)

theorem sortStrings_perm (l : List String) : (sortStrings l).Perm l := by
  induction l with
  | nil => exact List.Perm.refl _
  | cons x xs ih =>
      exact (insertSorted_perm x (sortStrings xs)).trans (List.Perm.cons x ih)

theorem pyHasKey_false_iff {d : PyDict} {k : String} :
    pyHasKey d k = false ↔ k ∉ d.map Prod.fst := by
  rw [← Bool.not_eq_true]
  simp only [pyHasKey, List.any_eq_true, beq_iff_eq, List.mem_map]

theorem dinsert_fresh {d : PyDict} {k : String} (v : PyVal)
    (h : pyHasKey d k = false) : dinsert d k v = d ++ [(k, v)] := by
  simp [dinsert, h]

theorem pyHasKey_append (d1 d2 : PyDict) (k : String) :
    pyHasKey (d1 ++ d2) k = (pyHasKey d1 k || pyHasKey d2 k) :=
  List.any_append

theorem foldl_dinsert_map (f : String → PyVal) :
    ∀ (ks : List String) (acc : PyDict),
      (ks.map lowerStr).Nodup →
      (∀ k ∈ ks, pyHasKey acc (lowerStr k) = false) →
      ks.foldl (fun acc k => dinsert acc (lowerStr k) (f k)) acc =
        acc ++ ks.map (fun k => (lowerStr k, f k)) := by
  intro ks
  induction ks with
  | nil =>
      intro acc _ _
      simp
  | cons k ks ih =>
      intro acc hnd hfr
      have hnd2 : lowerStr k ∉ ks.map lowerStr ∧ (ks.map lowerStr).Nodup := by
        rw [List.map_cons, List.nodup_cons] at hnd
        exact hnd
      have hfr2 : ∀ k' ∈ ks,
          pyHasKey (acc ++ [(lowerStr k, f k)]) (lowerStr k') = false := by
        intro k' hk'
        rw [pyHasKey_append]
        rw [hfr k' (List.mem_cons_of_mem _ hk')]
        have hne : (lowerStr k == lowerStr k') = false := by
          rw [beq_eq_false_iff_ne]
          intro he
          exact hnd2.1 (he ▸ List.mem_map_of_mem lowerStr hk')
        simp [pyHasKey, hne]
      simp only [List.foldl_cons]
      rw [dinsert_fresh (f k) (hfr k (List.mem_cons_self _ _))]
      rw [ih (acc ++ [(lowerStr k, f k)]) hnd2.2 hfr2]
      simp

theorem normalize_eq_map {d : PyDict}
    (hnd : ((lowerPairs d).map Prod.fst).Nodup) :
    normalize_params (some d) =
      (sortStrings (d.map Prod.fst)).map
        (fun k => (lowerStr k, (pyGet d k).getD "")) := by
  have hlow : ((d.map Prod.fst).map lowerStr).Nodup := by
    have he : (lowerPairs d).map Prod.fst = (d.map Prod.fst).map lowerStr := by
      simp [lowerPairs, List.map_map]
    rw [← he]
    exact hnd
  have hsorted : ((sortStrings (d.map Prod.fst)).map lowerStr).Nodup := by
    rw [List.Perm.nodup_iff ((sortStrings_perm (d.map Prod.fst)).map lowerStr)]
    exact hlow
  simp only [normalize_params]
  rw [foldl_dinsert_map (fun k => (pyGet d k).getD "")
    (sortStrings (d.map Prod.fst)) [] hsorted (fun _ _ => rfl)]
  simp

theorem keysmap_eq_lowerPairs {d : PyDict} (hk : (d.map Prod.fst).Nodup) :
    (d.map Prod.fst).map (fun k => (lowerStr k, (pyGet d k).getD "")) =
      lowerPairs d := by
  rw [List.map_map]
  simp only [lowerPairs]
  apply List.map_congr_left
  intro p hp
  have hg : pyGet d p.1 = some p.2 := mem_pyGet_of_nodup hk hp
  simp [Function.comp, hg]

theorem normalize_perm_lowerPairs {d : PyDict}
    (hnd : ((lowerPairs d).map Prod.fst).Nodup) :
    (normalize_params (some d)).Perm (lowerPairs d) := by
  rw [normalize_eq_map hnd]
  have hkeys : (d.map Prod.fst).Nodup := by
    have h1 : ((d.map Prod.fst).map lowerStr).Nodup := by
      have he : (lowerPairs d).map Prod.fst = (d.map Prod.fst).map lowerStr := by
        simp [lowerPairs, List.map_map]
      rw [← he]
      exact hnd
    exact List.Nodup.of_map lowerStr h1
  have hstep := (sortStrings_perm (d.map Prod.fst)).map
    (fun k => (lowerStr k, (pyGet d k).getD ""))
  rw [keysmap_eq_lowerPairs hkeys] at hstep
  exact hstep

theorem dictEq_of_perm {a b : PyDict} (hp : a.Perm b)
    (hnd : (a.map Prod.fst).Nodup) : dictEq a b = true := by
  have hndb : (b.map Prod.fst).Nodup := ((hp.map Prod.fst).nodup_iff).mp hnd
  rw [dictEq_iff]
  constructor
  · intro p hpa
    exact mem_pyGet_of_nodup hndb (hp.subset hpa)
  · intro p hpb
    exact mem_pyGet_of_nodup hnd (hp.symm.subset hpb)

def cs8_d1 : PyDict := [("A", "1"), ("a", "2")]

def cs8_d2 : PyDict := [("a", "1"), ("A", "2")]

/-- C8, counterexample: two parameter maps that differ only in key
letter-case (their case-lowered pair lists are literally equal, hence a
permutation of each other) whose normalized forms are **not** equal — the
comprehension lower-cases after sorting the original keys, so colliding
keys keep the value of the later original key, which differs between the
two maps. Duplicate comparison of two ActionRecords with the same name
then also differs. -/
theorem c8_counterexample :
    (lowerPairs cs8_d1).Perm (lowerPairs cs8_d2) ∧
    dictEq (normalize_params (some cs8_d1))
      (normalize_params (some cs8_d2)) = false ∧
    sameKey ⟨"t", normalize_params (some cs8_d1)⟩
      ⟨"t", normalize_params (some cs8_d2)⟩ = false := by
  refine ⟨?_, by decide, by decide⟩
  have he : lowerPairs cs8_d1 = lowerPairs cs8_d2 := by decide
  rw [he]

/-- C8 (amended): `None` parameters normalize to the empty map; for
parameter maps **without case-colliding keys** (lower-cased keys pairwise
distinct), any two maps that differ only in key letter-case or key order
(equal multisets of case-lowered entries) have structurally equal
normalized forms; and the duplicate comparison never consults
timestamps. -/
theorem c8_amended_normalization :
    normalize_params none = ([] : PyDict) ∧
    (∀ d1 d2 : PyDict,
      ((lowerPairs d1).map Prod.fst).Nodup →
      ((lowerPairs d2).map Prod.fst).Nodup →
      (lowerPairs d1).Perm (lowerPairs d2) →
      dictEq (normalize_params (some d1))
        (normalize_params (some d2)) = true) ∧
    (∀ (n1 n2 : String) (p1 p2 : PyDict) (t1 t2 t3 t4 : Nat),
      isDuplicate ⟨n1, p1, t1⟩ ⟨n2, p2, t2⟩ =
        isDuplicate ⟨n1, p1, t3⟩ ⟨n2, p2, t4⟩) := by
  refine ⟨rfl, ?_, fun _ _ _ _ _ _ _ _ => rfl⟩
  intro d1 d2 h1 h2 hperm
  have hp1 := normalize_perm_lowerPairs h1
  have hp2 := normalize_perm_lowerPairs h2
  exact dictEq_of_perm ((hp1.trans hperm).trans hp2.symm)
    (normalize_params_nodup (some d1))

/-! ## Iteration bound and termination of the chained loop (C5) -/

theorem str_eq_empty_of_len {s : String} (h : s.length = 0) : s = "" := by
  cases s with
  | mk data =>
      simp [String.length] at h
      simp [h]

theorem append_ne_empty_left {a : String} (b : String) (h : a ≠ "") :
    a ++ b ≠ "" := by
  intro he
  have h2 := congrArg String.length he
  rw [String.length_append] at h2
  have hz : ("" : String).length = 0 := rfl
  rw [hz] at h2
  exact h (str_eq_empty_of_len (by omega))

theorem append_ne_empty_right (a : String) {b : String} (h : b ≠ "") :
    a ++ b ≠ "" := by
  intro he
  have h2 := congrArg String.length he
  rw [String.length_append] at h2
  have hz : ("" : String).length = 0 := rfl
  rw [hz] at h2
  exact h (str_eq_empty_of_len (by omega))

theorem entryOf_ne_empty (tc : ToolCall) (r : String) : entryOf tc r ≠ "" := by
  simp only [entryOf]
  apply append_ne_empty_right
  intro h
  have h2 := congrArg String.length h
  have hx : ("\n" : String).length = 1 := rfl
  have hz : ("" : String).length = 0 := rfl
  rw [hx, hz] at h2
  cases h2

theorem postBatchState_chained (reg : Registry) (ts : Nat) (s : AgentState) :
    (postBatchState reg ts s).chained = s.chained := by
  simp only [postBatchState]
  split <;> rfl

theorem postBatchState_iter (reg : Registry) (ts : Nat) (s : AgentState) :
    (postBatchState reg ts s).iter_count = s.iter_count := by
  simp only [postBatchState]
  split <;> rfl

theorem postBatchState_final_chained {reg : Registry} {ts : Nat}
    {s : AgentState} (h : s.chained = true) :
    (postBatchState reg ts s).final_response = s.final_response := by
  simp [postBatchState, h]

theorem chainedCycle_iter (O : Oracles) (ts : Nat) (s : AgentState) :
    (chainedCycle O ts s).1.iter_count = s.iter_count + 1 := by
  rw [chainedCycle_eq, (execT_fields O.reg ts (cycleMid O ts s)).1]
  exact cycleMid_iter O ts s

theorem loopEdge_iff {s : AgentState} :
    loopEdge s = true ↔ s.chained = true ∧ s.final_response = "" ∧
      s.iter_count < MAX_CHAIN_ITERATIONS := by
  simp [loopEdge, Bool.and_eq_true, decide_eq_true_eq, and_assoc]

/-- Cycle-count bound, for arbitrary collaborators: each committed cycle
increments `iter_count` and the loop edge requires it below the bound. -/
theorem chainedLoop_count (O : Oracles) (ts : Nat) :
    ∀ (fuel : Nat) (s : AgentState),
      (chainedLoop O ts fuel s).2.2 ≤
          MAX_CHAIN_ITERATIONS - s.iter_count ∨
        (MAX_CHAIN_ITERATIONS ≤ s.iter_count ∧
          (chainedLoop O ts fuel s).2.2 ≤ 1) := by
  intro fuel
  induction fuel with
  | zero =>
      intro s
      left
      simp [chainedLoop]
  | succ fuel ih =>
      intro s
      simp only [chainedLoop]
      by_cases hedge : loopEdge (chainedCycle O ts s).1 = true
      · rw [if_pos hedge]
        have hlt := (loopEdge_iff.mp hedge).2.2
        rw [chainedCycle_iter] at hlt
        have hrec := ih (chainedCycle O ts s).1
        rw [chainedCycle_iter] at hrec
        left
        rcases hrec with h | h
        · simp only []
          omega
        · omega
      · rw [if_neg hedge]
        simp only []
        by_cases hlt : s.iter_count < MAX_CHAIN_ITERATIONS
        · left
          omega
        · right
          omega

/-- Collaborators realising the claim's hypothesis: the proposer always
returns a non-empty candidate list whose head is fresh, approvals are
granted, and every registry operation succeeds. -/
def HappyOracles (O : Oracles) : Prop :=
  (∀ (ctx : ActionContext) (q : String), ∃ tc rest,
    O.proposeC ctx q = .ok (tc :: rest) ∧
    hasKeyL ctx.already_executed tc.key = false) ∧
  (∀ n, O.approve n = true) ∧
  (∀ name, ∃ f, O.reg name = some f ∧ ∀ args, ∃ r, f args = .ok r)

/-- One happy-path chained cycle: approval granted, fresh proposal,
successful execution — the log strictly grows, the iteration counter
advances, no final response is produced. -/
theorem happyCycle (O : Oracles) (ts : Nat) (hH : HappyOracles O)
    (s : AgentState) (hch : s.chained = true) (hfin : s.final_response = "")
    (hle : s.iter_count + 1 ≤ MAX_CHAIN_ITERATIONS) :
    (chainedCycle O ts s).1.final_response = "" ∧
    (chainedCycle O ts s).1.chained = true ∧
    (chainedCycle O ts s).1.iter_count = s.iter_count + 1 ∧
    ∃ ext, ext ≠ "" ∧
      (chainedCycle O ts s).1.tool_response = s.tool_response ++ ext := by
  obtain ⟨tc, rest, hp, hfr⟩ := hH.1 (get_or_init_action_context s) s.query
  have hgt : ¬s.iter_count + 1 > MAX_CHAIN_ITERATIONS := by omega
  have hidentify := @chainedI_fresh O.proposeC ts s tc rest hgt hp hfr
  have hmid : cycleMid O ts s = { s with
      iter_count := s.iter_count + 1
      identified_actions := [tc]
      requires_approval := true
      actions_to_review := some (mkReview s.query [tc])
      action_context := .stored (get_or_init_action_context s)
      user_approved := true } := by
    simp only [cycleMid, hidentify, if_true]
    rw [hH.2.1]
  obtain ⟨f, hregf, hinv⟩ := hH.2.2 tc.name
  obtain ⟨r, hok⟩ := hinv tc.args
  set M := ({ s with
      iter_count := s.iter_count + 1
      identified_actions := [tc]
      requires_approval := true
      actions_to_review := some (mkReview s.query [tc])
      action_context := .stored (get_or_init_action_context s)
      user_approved := true } : AgentState) with hM
  have hapM : M.user_approved = true := rfl
  have hTE : toExecute M = [tc] := by
    simp [toExecute, hM, hch]
  have hneM : toExecute M ≠ [] := by
    rw [hTE]
    simp
  have hfrM : hasKeyL (get_or_init_action_context M).already_executed tc.key
      = false := hfr
  have hB : runBatch O.reg ts (toExecute M) (get_or_init_action_context M)
      M.tool_response =
      ⟨M.tool_response ++ entryOf tc r,
        stepCtx (get_or_init_action_context M) tc r ts, [tc.key], false⟩ := by
    rw [hTE, runBatch_cons_ok hfrM hregf hok, runBatch_nil]
  have hraM : (runBatch O.reg ts (toExecute M)
      (get_or_init_action_context M) M.tool_response).raised = false := by
    rw [hB]
  have hcyc : chainedCycle O ts s =
      (applyFinally (postBatchState O.reg ts M),
        (runBatch O.reg ts (toExecute M) (get_or_init_action_context M)
          M.tool_response).invoked) := by
    rw [chainedCycle_eq, hmid]
    exact execT_ok hapM hneM hraM
  have hchM : M.chained = true := hch
  refine ⟨?_, ?_, ?_, ⟨entryOf tc r, entryOf_ne_empty tc r, ?_⟩⟩
  · rw [hcyc]
    simp only []
    rw [applyFinally_final, postBatchState_final_chained hchM]
    exact hfin
  · rw [hcyc]
    simp only []
    rw [applyFinally_chained, postBatchState_chained]
    exact hchM
  · rw [hcyc]
    simp only []
    rw [applyFinally_iter, postBatchState_iter]
  · rw [hcyc]
    simp only []
    rw [applyFinally_toolResponse, postBatchState_tr, hB]

/-- Happy-path loop: from a continuing chained state below the bound, the
loop performs exactly the remaining budget of cycles, never sets a final
response, and strictly extends the accumulated log. -/
theorem happyLoop (O : Oracles) (ts : Nat) (hH : HappyOracles O) :
    ∀ (fuel : Nat) (s : AgentState), s.chained = true →
      s.final_response = "" → s.iter_count < MAX_CHAIN_ITERATIONS →
      MAX_CHAIN_ITERATIONS - s.iter_count ≤ fuel →
      (chainedLoop O ts fuel s).2.2 =
        MAX_CHAIN_ITERATIONS - s.iter_count ∧
      (chainedLoop O ts fuel s).1.final_response = "" ∧
      ∃ ext, ext ≠ "" ∧
        (chainedLoop O ts fuel s).1.tool_response =
          s.tool_response ++ ext := by
  intro fuel
  induction fuel with
  | zero =>
      intro s _ _ hlt hfuel
      omega
  | succ fuel ih =>
      intro s hch hfin hlt hfuel
      obtain ⟨hcfin, hcch, hciter, e1, he1, htr1⟩ :=
        happyCycle O ts hH s hch hfin (by omega)
      simp only [chainedLoop]
      by_cases hnext : s.iter_count + 1 < MAX_CHAIN_ITERATIONS
      · have hedge : loopEdge (chainedCycle O ts s).1 = true :=
          loopEdge_iff.mpr ⟨hcch, hcfin, by rw [hciter]; omega⟩
        rw [if_pos hedge]
        obtain ⟨hcount, hfin2, ext2, hne2, htr2⟩ :=
          ih (chainedCycle O ts s).1 hcch hcfin (by rw [hciter]; omega)
            (by rw [hciter]; omega)
        refine ⟨?_, hfin2, ⟨e1 ++ ext2, append_ne_empty_left ext2 he1, ?_⟩⟩
        · simp only []
          rw [hcount, hciter]
          omega
        · simp only []
          rw [htr2, htr1, String.append_assoc]
      · have hstop : s.iter_count + 1 = MAX_CHAIN_ITERATIONS := by omega
        have hedge : loopEdge (chainedCycle O ts s).1 = false := by
          cases he : loopEdge (chainedCycle O ts s).1
          · rfl
          · have := (loopEdge_iff.mp he).2.2
            rw [hciter] at this
            omega
        rw [if_neg (by simp [hedge])]
        exact ⟨by simp only []; omega, hcfin, ⟨e1, he1, htr1⟩⟩

/-- C5: (i) the circuit breaker: once `iter_count` has reached the bound,
`chained_identify_actions` terminates with the accumulated response (or
the no-result sentinel if it is empty); (ii) for **any** proposer,
registry and approval behaviour, a chained run from the initial state
performs at most `MAX_CHAIN_ITERATIONS = 4` cycles — it never loops
indefinitely (the cycle count is bounded independently of the fuel);
(iii) for a proposer that on every cycle returns a non-empty candidate
list whose head is not a duplicate (with approvals granted and operations
succeeding), the run performs exactly `MAX_CHAIN_ITERATIONS` cycles and
the surfaced terminal response is the (non-empty) accumulated
`toolResponse`. -/
theorem c5_iteration_bound :
    (∀ (p : ActionContext → String → Except Unit (List ToolCall)) (ts : Nat)
      (s : AgentState), MAX_CHAIN_ITERATIONS ≤ s.iter_count →
      (chained_identify_actions p ts s).final_response =
        (if s.tool_response = "" then NO_RESPONSE else s.tool_response)) ∧
    (∀ (O : Oracles) (ts fuel : Nat) (q : String),
      (chainedLoop O ts fuel (initialState q true)).2.2 ≤
        MAX_CHAIN_ITERATIONS) ∧
    (∀ (O : Oracles) (ts : Nat), HappyOracles O →
      ∀ (fuel : Nat) (q : String), MAX_CHAIN_ITERATIONS ≤ fuel →
      (chainedLoop O ts fuel (initialState q true)).2.2 =
        MAX_CHAIN_ITERATIONS ∧
      (chainedLoop O ts fuel (initialState q true)).1.tool_response ≠ "" ∧
      surfacedResponse (chainedLoop O ts fuel (initialState q true)).1 =
        (chainedLoop O ts fuel (initialState q true)).1.tool_response) := by
  refine ⟨?_, ?_, ?_⟩
  · intro p ts s h
    simp only [chained_identify_actions]
    rw [chainedI_maxed (by omega)]
  · intro O ts fuel q
    have h := chainedLoop_count O ts fuel (initialState q true)
    have hi : (initialState q true).iter_count = 0 := rfl
    rw [hi] at h
    have h4 : MAX_CHAIN_ITERATIONS = 4 := rfl
    rw [h4] at h ⊢
    rcases h with h | h
    · omega
    · omega
  · intro O ts hH fuel q hfuel
    have hf4 : 4 ≤ fuel := hfuel
    have hrun := happyLoop O ts hH fuel (initialState q true) rfl rfl
      (by simp [initialState, MAX_CHAIN_ITERATIONS])
      (le_trans (Nat.sub_le _ _) hfuel)
    obtain ⟨hcount, hfin, ext, hne, htr⟩ := hrun
    have hi : (initialState q true).iter_count = 0 := rfl
    have htr0 : (initialState q true).tool_response = "" := rfl
    refine ⟨?_, ?_, ?_⟩
    · rw [hcount, hi, Nat.sub_zero]
    · rw [htr, htr0]
      intro hcon
      have h2 := congrArg String.length hcon
      rw [String.length_append] at h2
      have hz : ("" : String).length = 0 := rfl
      rw [hz] at h2
      exact hne (str_eq_empty_of_len (by omega))
    · simp [surfacedResponse, hfin]

/-- A proposer name guaranteed fresh for the given context: longer than
every recorded name. -/
def diagName (ctx : ActionContext) : String :=
  (ctx.already_executed.foldl (fun a ea => a ++ ea.name) "") ++ "x"

/-- Concrete collaborators satisfying `HappyOracles`. -/
def diagOracles : Oracles :=
  { propose1 := fun _ => []
    proposeC := fun ctx _ => .ok [⟨diagName ctx, [], "id"⟩]
    reg := fun _ => some (fun _ => .ok "ok")
    approve := fun _ => true }

theorem foldl_name_len_mono :
    ∀ (l : List ExecutedAction) (acc : String),
      acc.length ≤ (l.foldl (fun a ea => a ++ ea.name) acc).length := by
  intro l
  induction l with
  | nil => intro acc; exact le_refl _
  | cons e l ih =>
      intro acc
      simp only [List.foldl_cons]
      refine le_trans ?_ (ih (acc ++ e.name))
      rw [String.length_append]
      omega

theorem mem_name_len_le :
    ∀ (l : List ExecutedAction) (acc : String) (ea : ExecutedAction),
      ea ∈ l →
      ea.name.length ≤ (l.foldl (fun a ea => a ++ ea.name) acc).length := by
  intro l
  induction l with
  | nil => intro acc ea h; cases h
  | cons e l ih =>
      intro acc ea h
      simp only [List.foldl_cons]
      rcases List.mem_cons.mp h with h | h
      · subst h
        refine le_trans ?_ (foldl_name_len_mono l (acc ++ ea.name))
        rw [String.length_append]
        omega
      · exact ih _ ea h

theorem diag_happy : HappyOracles diagOracles := by
  refine ⟨?_, fun _ => rfl,
    fun name => ⟨fun _ => .ok "ok", rfl, fun args => ⟨"ok", rfl⟩⟩⟩
  intro ctx q
  refine ⟨⟨diagName ctx, [], "id"⟩, [], rfl, ?_⟩
  rw [hasKeyL_false_iff]
  intro ea hea
  have hne : (ea.name == diagName ctx) = false := by
    rw [beq_eq_false_iff_ne]
    intro he
    have h1 : ea.name.length ≤
        (ctx.already_executed.foldl (fun a ea => a ++ ea.name) "").length :=
      mem_name_len_le ctx.already_executed "" ea hea
    have h2 : (diagName ctx).length =
        (ctx.already_executed.foldl (fun a ea => a ++ ea.name) "").length
          + 1 := by
      simp only [diagName]
      rw [String.length_append]
      rfl
    rw [he] at h1
    omega
  simp [sameKey, ExecutedAction.key, ToolCall.key, hne]

/-- Witness for C5: the happy-path conclusion at concrete collaborators
and fuel. -/
theorem c5_iteration_bound_witness :
    (chainedLoop diagOracles 0 4 (initialState "w" true)).2.2 =
      MAX_CHAIN_ITERATIONS ∧
    (chainedLoop diagOracles 0 4 (initialState "w" true)).1.tool_response
      ≠ "" ∧
    surfacedResponse (chainedLoop diagOracles 0 4
      (initialState "w" true)).1 =
      (chainedLoop diagOracles 0 4 (initialState "w" true)).1.tool_response :=
  c5_iteration_bound.2.2 diagOracles 0 diag_happy 4 "w" (le_refl _)

/-- Witness for the amended C8 on maps differing in key case and order. -/
theorem c8_amended_witness :
    dictEq (normalize_params (some [("B", "1"), ("a", "2")]))
      (normalize_params (some [("a", "2"), ("b", "1")])) = true :=
  c8_amended_normalization.2.1 [("B", "1"), ("a", "2")] [("a", "2"), ("b", "1")]
    (by decide) (by decide) (by decide)

end TaskExec
